import Mathlib

/-!
A shallow embedding of qlibc's static-memory hash table (`qhasharr.c`).

This file models the fixed-capacity flat-memory hash table implemented in
`src/containers/qhasharr.c` of the qlibc repository, together with the
key-hashing primitives it relies on, and proves properties of the model.

Modelling conventions:

* C machine integers are modelled as `Nat` (unsigned) or `Int` (signed),
  with explicit reduction `% 2^w` wherever the C code can overflow or
  narrow (e.g. the `uint16_t keylen` slot field).
* Byte buffers are `List Nat` (each element a byte value).  Keys are C
  strings, i.e. lists of non-zero bytes; `strlen key = key.length`.
* A slot's pair payload and extension payload are a C union starting at
  the same offset; the model keeps a single `value` list holding the bytes
  that have been written at the start of the payload area, and a separate
  `size` field exactly as in the C struct (`memcpy` of `size` bytes out of
  the payload is modelled as `value.take size`).
* In-place mutation becomes explicit state passing of the `QArr` record;
  `bool` + `errno` results become `QArr × Option Errno` (`none` = success,
  i.e. the C function returned `true`).
* The unbounded C loops that walk `link` chains are given `maxslots + 1`
  fuel; a well-formed chain visits each slot at most once, so the fuel is
  never exhausted in any state reachable in the scenarios studied here.
* `malloc` failure paths (`ENOMEM`) are not modelled.
-/

namespace QHashArr

/-- 2^32, the modulus of the 32-bit machine words used by the hashes. -/
def U32 : Nat := 4294967296

/-- 32-bit rotate left of `x` by `r` (for `0 < r < 32`). -/
def rotl32 (x r : Nat) : Nat :=
  x % U32 % 2 ^ (32 - r) * 2 ^ r + x % U32 / 2 ^ (32 - r)

/-- One MurmurHash3 scramble of a 32-bit block. -/
def mmix32 (k : Nat) : Nat :=
  rotl32 (k * 3432918353 % U32) 15 * 461845907 % U32

/-- Body loop of MurmurHash3 x86 32-bit: consume 4-byte little-endian
blocks, then the 1-3 byte tail. -/
def murmurBody : List Nat → Nat → Nat
  | b0 :: b1 :: b2 :: b3 :: rest, h =>
    let k := b0 + b1 * 256 + b2 * 65536 + b3 * 16777216
    murmurBody rest ((rotl32 (h ^^^ mmix32 k) 13 * 5 + 3864292196) % U32)
  | [], h => h
  | tail, h =>
    let k := tail.getD 0 0 + tail.getD 1 0 * 256 + tail.getD 2 0 * 65536
    h ^^^ mmix32 k

/-- Final avalanche of MurmurHash3 x86 32-bit. -/
def fmix32 (h : Nat) : Nat :=
  let h1 := h ^^^ (h / 65536)
  let h2 := h1 * 2246822507 % U32
  let h3 := h2 ^^^ (h2 / 8192)
  let h4 := h3 * 3266489909 % U32
  h4 ^^^ (h4 / 65536)

/-- Modelled from the spec: `qhasharr.c` computes its bucket index as
`qhashmurmur3_32(key, strlen(key)) % maxslots`, but the definition of
`qhashmurmur3_32` is not among the provided sources (the provided
`qhash.c` only contains MD5/FNV helpers).  The spec names the function as
"murmur3_32", so this is the standard MurmurHash3 x86 32-bit algorithm
with seed 0 over a byte list (returning 0 on empty input, matching the
guard the library uses for hash helpers). -/
def qhashmurmur3_32 (data : List Nat) : Nat :=
  if data.length = 0 then 0
  else fmix32 ((murmurBody data 0) ^^^ (data.length % U32))

/-- Per-round left-rotation amounts of MD5. -/
def md5S : List Nat :=
  [7, 12, 17, 22, 7, 12, 17, 22, 7, 12, 17, 22, 7, 12, 17, 22,
   5, 9, 14, 20, 5, 9, 14, 20, 5, 9, 14, 20, 5, 9, 14, 20,
   4, 11, 16, 23, 4, 11, 16, 23, 4, 11, 16, 23, 4, 11, 16, 23,
   6, 10, 15, 21, 6, 10, 15, 21, 6, 10, 15, 21, 6, 10, 15, 21]

/-- Per-round additive constants of MD5 (RFC 1321). -/
def md5K : List Nat :=
  [0xd76aa478, 0xe8c7b756, 0x242070db, 0xc1bdceee,
   0xf57c0faf, 0x4787c62a, 0xa8304613, 0xfd469501,
   0x698098d8, 0x8b44f7af, 0xffff5bb1, 0x895cd7be,
   0x6b901122, 0xfd987193, 0xa679438e, 0x49b40821,
   0xf61e2562, 0xc040b340, 0x265e5a51, 0xe9b6c7aa,
   0xd62f105d, 0x02441453, 0xd8a1e681, 0xe7d3fbc8,
   0x21e1cde6, 0xc33707d6, 0xf4d50d87, 0x455a14ed,
   0xa9e3e905, 0xfcefa3f8, 0x676f02d9, 0x8d2a4c8a,
   0xfffa3942, 0x8771f681, 0x6d9d6122, 0xfde5380c,
   0xa4beea44, 0x4bdecfa9, 0xf6bb4b60, 0xbebfbc70,
   0x289b7ec6, 0xeaa127fa, 0xd4ef3085, 0x04881d05,
   0xd9d4d039, 0xe6db99e5, 0x1fa27cf8, 0xc4ac5665,
   0xf4292244, 0x432aff97, 0xab9423a7, 0xfc93a039,
   0x655b59c3, 0x8f0ccc92, 0xffeff47d, 0x85845dd1,
   0x6fa87e4f, 0xfe2ce6e0, 0xa3014314, 0x4e0811a1,
   0xf7537e82, 0xbd3af235, 0x2ad7d2bb, 0xeb86d391]

/-- Bitwise complement within 32 bits. -/
def md5NOT (x : Nat) : Nat := x ^^^ (U32 - 1)

/-- Split a byte list into little-endian 32-bit words (16 words per
64-byte chunk). -/
def md5Words : List Nat → List Nat
  | a :: b :: c :: d :: rest => (a + b * 256 + c * 65536 + d * 16777216) :: md5Words rest
  | _ => []

/-- One of the 64 MD5 rounds. -/
def md5Step (ws : List Nat) (st : Nat × Nat × Nat × Nat) (i : Nat) :
    Nat × Nat × Nat × Nat :=
  let a := st.1
  let b := st.2.1
  let c := st.2.2.1
  let d := st.2.2.2
  let f :=
    if i < 16 then (b &&& c) ||| (md5NOT b &&& d)
    else if i < 32 then (d &&& b) ||| (md5NOT d &&& c)
    else if i < 48 then b ^^^ c ^^^ d
    else c ^^^ (b ||| md5NOT d)
  let g :=
    if i < 16 then i
    else if i < 32 then (5 * i + 1) % 16
    else if i < 48 then (3 * i + 5) % 16
    else (7 * i) % 16
  let tmp := (f + a + md5K.getD i 0 + ws.getD g 0) % U32
  (d, (b + rotl32 tmp (md5S.getD i 0)) % U32, b, c)

/-- Process one 64-byte MD5 chunk. -/
def md5Block (st : Nat × Nat × Nat × Nat) (block : List Nat) :
    Nat × Nat × Nat × Nat :=
  let ws := md5Words block
  let r := (List.range 64).foldl (md5Step ws) st
  ((st.1 + r.1) % U32, (st.2.1 + r.2.1) % U32,
   (st.2.2.1 + r.2.2.1) % U32, (st.2.2.2 + r.2.2.2) % U32)

/-- Process all 64-byte chunks of an (already padded) message; the fuel
(number of chunks) is supplied by the caller. -/
def md5Chunks : Nat → List Nat → Nat × Nat × Nat × Nat → Nat × Nat × Nat × Nat
  | 0, _, st => st
  | fuel + 1, msg, st => md5Chunks fuel (msg.drop 64) (md5Block st (msg.take 64))

/-- MD5 padding: append `0x80`, zero-pad to 56 mod 64, then the 64-bit
little-endian bit length. -/
def md5Pad (msg : List Nat) : List Nat :=
  let len := msg.length
  let padlen := (119 - len % 64) % 64
  let bitlen := len * 8 % 2 ^ 64
  msg ++ 128 :: List.replicate padlen 0 ++
    [bitlen % 256, bitlen / 256 % 256, bitlen / 65536 % 256,
     bitlen / 16777216 % 256, bitlen / 4294967296 % 256,
     bitlen / 1099511627776 % 256, bitlen / 281474976710656 % 256,
     bitlen / 72057594037927936 % 256]

/-- Little-endian byte serialization of a 32-bit word. -/
def wordLEbytes (w : Nat) : List Nat :=
  [w % 256, w / 256 % 256, w / 65536 % 256, w / 16777216 % 256]

/-- Modelled from the spec: `qhasharr.c` stores a "128-bit MD5 digest of
the full key" via `qhashmd5`, whose definition is not among the provided
sources.  This is the standard MD5 algorithm (RFC 1321) over a byte list,
returning the 16 digest bytes. -/
def qhashmd5 (data : List Nat) : List Nat :=
  let padded := md5Pad data
  let r := md5Chunks (padded.length / 64) padded
    (1732584193, 4023233417, 2562383102, 271733878)
  wordLEbytes r.1 ++ wordLEbytes r.2.1 ++ wordLEbytes r.2.2.1 ++ wordLEbytes r.2.2.2

/-! ## Data model (`struct _Q_HASHARR_SLOT`, `struct qhasharr_t`) -/

/-- `_Q_HASHARR_KEYSIZE`: maximum inline key size (bytes). -/
def _Q_HASHARR_KEYSIZE : Nat := 16

/-- `_Q_HASHARR_VALUESIZE`: maximum value bytes in the first (pair) slot. -/
def _Q_HASHARR_VALUESIZE : Nat := 32

/-- `sizeof(struct _Q_HASHARR_SLOT_EXT)`: value capacity of an extension
slot; the extension payload is a union overlaying the whole pair payload
(32 value + 16 key + 2 keylen + 16 keymd5 = 66 bytes, no padding). -/
def SLOT_EXT_SIZE : Nat := 66

/-- One fixed-size slot (`struct _Q_HASHARR_SLOT`).  `key` models the
16-byte inline key array (`strncpy` semantics: truncated key plus zero
padding); `value` models the bytes written at the start of the payload
union, which is shared between the pair payload and the extension
payload. -/
structure Slot where
  count : Int
  hash : Nat
  size : Nat
  link : Int
  key : List Nat
  keylen : Nat
  keymd5 : List Nat
  value : List Nat
deriving Repr, DecidableEq

/-- An all-zero slot (the state produced by `memset 0`): note that a
zero `link` is index 0, not the end-of-chain sentinel `-1`. -/
def zeroSlot : Slot :=
  { count := 0, hash := 0, size := 0, link := 0,
    key := List.replicate 16 0, keylen := 0,
    keymd5 := List.replicate 16 0, value := [] }

/-- The table (`struct qhasharr_t`): header counters plus the slot
array, modelled as a total function from slot index to slot (indices
`≥ maxslots` are never accessed by the operations). -/
@[ext] structure QArr where
  maxslots : Nat
  usedslots : Int
  num : Int
  slots : Nat → Slot

/-- Write slot `i`. -/
def setSlot (t : QArr) (i : Nat) (s : Slot) : QArr :=
  { t with slots := fun j => if j = i then s else t.slots j }

/-- Update slot `i` in place. -/
def updSlot (t : QArr) (i : Nat) (f : Slot → Slot) : QArr :=
  setSlot t i (f (t.slots i))

/-- The state `qhasharr(memory, memsize)` produces for a block that fits
`n` slots: all counters zero and the whole slot area zero-filled. -/
def qhasharrNew (n : Nat) : QArr :=
  { maxslots := n, usedslots := 0, num := 0, slots := fun _ => zeroSlot }

/-- The `errno` values the modelled operations can set. -/
inductive Errno where
  | EINVAL
  | ENOBUFS
  | ENOENT
  | EFAULT
deriving Repr, DecidableEq

/-! ## Internal helpers of `qhasharr.c` -/

/-- Loop body of `_find_empty`: scan for a slot with `count == 0`,
wrapping at `maxslots`, stopping after a full cycle.  Fuel bounds the
number of probes (`maxslots` suffices for a full cycle). -/
def findEmptyAux (t : QArr) (startidx : Nat) : Nat → Nat → Option Nat
  | 0, _ => none
  | fuel + 1, idx =>
    if (t.slots idx).count = 0 then some idx
    else
      let idx1 := if idx + 1 ≥ t.maxslots then 0 else idx + 1
      if idx1 = startidx then none
      else findEmptyAux t startidx fuel idx1

/-- `_find_empty`: first empty slot at or after `startidx` (wrapping),
`none` if the table has no empty slot (C returns `-1`). -/
def _find_empty (t : QArr) (startidx : Nat) : Option Nat :=
  let s := if startidx ≥ t.maxslots then 0 else startidx
  findEmptyAux t s t.maxslots s

/-- The key comparison of `_get_idx`: stored 16-bit `keylen` must equal
`strlen(key)`; short keys compare all bytes, truncated keys compare the
16 stored bytes and the MD5 digest of the full key. -/
def keyMatches (key : List Nat) (s : Slot) : Bool :=
  let keylen := key.length
  if keylen = s.keylen then
    if keylen ≤ _Q_HASHARR_KEYSIZE then
      key.take keylen == s.key.take keylen
    else
      (key.take _Q_HASHARR_KEYSIZE == s.key.take _Q_HASHARR_KEYSIZE) &&
        (qhashmd5 key == s.keymd5)
  else false

/-- Loop body of `_get_idx`: scan from `idx`, counting slots whose `hash`
equals the bucket and whose `count` is positive or `-1`, until `cnt`
reaches the leading slot's `count`, returning the first one matching the
key.  Fuel bounds the number of probes. -/
def getIdxAux (t : QArr) (key : List Nat) (hash : Nat) :
    Nat → Nat → Int → Option Nat
  | 0, _, _ => none
  | fuel + 1, idx, cnt =>
    if cnt < (t.slots hash).count then
      let s := t.slots idx
      if s.hash = hash ∧ (0 < s.count ∨ s.count = -1) then
        if keyMatches key s then some idx
        else
          let idx1 := if idx + 1 ≥ t.maxslots then 0 else idx + 1
          if idx1 = hash then none
          else getIdxAux t key hash fuel idx1 (cnt + 1)
      else
        let idx1 := if idx + 1 ≥ t.maxslots then 0 else idx + 1
        if idx1 = hash then none
        else getIdxAux t key hash fuel idx1 cnt
    else none

/-- `_get_idx`: index of the slot holding `key` in bucket `hash`, or
`none` (C returns `-1`). -/
def _get_idx (t : QArr) (key : List Nat) (hash : Nat) : Option Nat :=
  if 0 < (t.slots hash).count then getIdxAux t key hash t.maxslots hash 0
  else none

/-- Chain walk of `_get_data`: concatenate `size` bytes from each slot of
the `link` chain.  Fuel bounds the walk (a well-formed chain has at most
`maxslots` slots). -/
def getDataAux (t : QArr) : Nat → Nat → Option (List Nat)
  | 0, _ => none
  | fuel + 1, idx =>
    let s := t.slots idx
    let bytes := s.value.take s.size
    if s.link = -1 then some bytes
    else
      match getDataAux t fuel s.link.toNat with
      | some rest => some (bytes ++ rest)
      | none => none

/-- `_get_data`: the full value stored by the entry whose chain starts at
`idx` (the C function also returns its length, which is the list
length here). -/
def _get_data (t : QArr) (idx : Nat) : Option (List Nat) :=
  getDataAux t (t.maxslots + 1) idx

/-- `_copy_slot`: copy slot `idx2` over the (empty) slot `idx1` and count
it as used. -/
def _copy_slot (t : QArr) (idx1 idx2 : Nat) : QArr × Bool :=
  if (t.slots idx1).count ≠ 0 ∨ (t.slots idx2).count = 0 then (t, false)
  else
    let t1 := setSlot t idx1 (t.slots idx2)
    ({ t1 with usedslots := t1.usedslots + 1 }, true)

/-- `_remove_slot`: mark slot `idx` empty (only `count` is cleared; all
other fields keep their stale values) and decrement `usedslots`. -/
def _remove_slot (t : QArr) (idx : Nat) : QArr × Bool :=
  if (t.slots idx).count = 0 then (t, false)
  else
    let t1 := updSlot t idx (fun s => { s with count := 0 })
    ({ t1 with usedslots := t1.usedslots - 1 }, true)

/-- Loop of `_remove_data`: free every slot of the `link` chain starting
at `idx`.  Fuel bounds the walk. -/
def removeDataLoop (t : QArr) : Nat → Nat → QArr
  | 0, _ => t
  | fuel + 1, idx =>
    let link := (t.slots idx).link
    let t1 := (_remove_slot t idx).1
    if link = -1 then t1
    else removeDataLoop t1 fuel link.toNat

/-- `_remove_data`: free the whole chain of the entry at `idx` and
decrement the stored-key counter. -/
def _remove_data (t : QArr) (idx : Nat) : QArr × Bool :=
  if (t.slots idx).count = 0 then (t, false)
  else
    let t1 := removeDataLoop t (t.maxslots + 1) idx
    ({ t1 with num := t1.num - 1 }, true)

/-- The freshly `memset`-cleared extension slot `_put_data` creates:
`count = -2`, backward pointer to the previous chain slot in `hash`,
end-of-chain mark in `link`. -/
def extSlotInit (prev : Nat) : Slot :=
  { zeroSlot with count := -2, hash := prev, link := -1, size := 0 }

/-- Value-storing loop of `_put_data`: while unwritten bytes remain,
allocate the next extension slot by probing forward, link it, and copy
the next block of bytes.  On allocation failure the partially written
chain is removed and `ENOBUFS` is reported (with the table in the
rolled-back state). -/
def putDataLoop (firstIdx : Nat) (value : List Nat) (size : Nat) :
    Nat → QArr → Nat → Nat → QArr × Option Errno
  | 0, t, _, _ => (t, some Errno.EFAULT)
  | fuel + 1, t, newidx, savesize =>
    if savesize < size then
      let alloc : QArr × Nat × Bool :=
        if 0 < savesize then
          match _find_empty t (newidx + 1) with
          | none => (t, 0, false)
          | some tmpidx =>
            let t1 := setSlot t tmpidx (extSlotInit newidx)
            let t2 := updSlot t1 newidx (fun s => { s with link := (tmpidx : Int) })
            (t2, tmpidx, true)
        else (t, newidx, true)
      if alloc.2.2 then
        let t2 := alloc.1
        let nidx := alloc.2.1
        let cap :=
          if (t2.slots nidx).count = -2 then SLOT_EXT_SIZE else _Q_HASHARR_VALUESIZE
        let copysize := min (size - savesize) cap
        let t3 :=
          if (t2.slots nidx).count = -2 then
            updSlot t2 nidx (fun s =>
              { s with value := (value.drop savesize).take copysize, size := copysize })
          else
            { updSlot t2 nidx (fun s =>
                { s with value := (value.drop savesize).take copysize, size := copysize })
              with num := t2.num + 1 }
        let t4 := { t3 with usedslots := t3.usedslots + 1 }
        putDataLoop firstIdx value size fuel t4 nidx (savesize + copysize)
      else
        ((_remove_data alloc.1 firstIdx).1, some Errno.ENOBUFS)
    else (t, none)

/-- `strncpy(dst, key, 16)`: the stored 16-byte key array (truncated key
plus zero padding). -/
def strncpy16 (key : List Nat) : List Nat :=
  key.take _Q_HASHARR_KEYSIZE ++ List.replicate (_Q_HASHARR_KEYSIZE - key.length) 0

/-- `_put_data`: write a fresh entry for `key` (with collision `count`
discriminator) into the empty slot `idx`, spreading `value` over
extension slots as needed.  Note that when `size = 0` the storing loop
never runs: neither `num` nor `usedslots` is touched and the slot's
stale `size`/payload remain. -/
def _put_data (t : QArr) (idx hash : Nat) (key value : List Nat) (size : Nat)
    (count : Int) : QArr × Option Errno :=
  if (t.slots idx).count ≠ 0 then (t, some Errno.EFAULT)
  else
    let t1 := updSlot t idx (fun s =>
      { s with count := count, hash := hash, key := strncpy16 key,
               keymd5 := qhashmd5 key, keylen := key.length % 65536,
               link := -1 })
    putDataLoop idx value size (size + 1) t1 idx 0

/-- Collision-member scan of `remove_`: from `idx + 1` (wrapping), find a
slot with `count == -1` whose `hash` is the removed leading slot's
bucket; `none` models the `EFAULT` "bug" exit after a full cycle. -/
def findDupAux (t : QArr) (hash stop : Nat) : Nat → Nat → Option Nat
  | 0, _ => none
  | fuel + 1, idx2 =>
    let i := if idx2 ≥ t.maxslots then 0 else idx2
    if i = stop then none
    else if (t.slots i).count = -1 ∧ (t.slots i).hash = hash then some i
    else findDupAux t hash stop fuel (i + 1)

/-- `remove_`: delete the entry for `key`.  Mirrors the three cases of
the C code: sole entry of its bucket, leading slot with collisions
(relocate a collision member into the leading position), and displaced
collision member (decrement the leading slot's counter). -/
def remove_ (t : QArr) (key : List Nat) : QArr × Option Errno :=
  let hash := qhashmurmur3_32 key % t.maxslots
  match _get_idx t key hash with
  | none => (t, some Errno.ENOENT)
  | some idx =>
    if (t.slots idx).count = 1 then
      ((_remove_data t idx).1, none)
    else if 1 < (t.slots idx).count then
      match findDupAux t hash idx (t.maxslots + 1) (idx + 1) with
      | none => (t, some Errno.EFAULT)
      | some idx2 =>
        let backupcount := (t.slots idx).count
        let t1 := (_remove_data t idx).1
        let t2 := (_copy_slot t1 idx idx2).1
        let t3 := (_remove_slot t2 idx2).1
        let t4 := updSlot t3 idx (fun s => { s with count := backupcount - 1 })
        let t5 :=
          if (t4.slots idx).link ≠ -1 then
            updSlot t4 (t4.slots idx).link.toNat (fun s => { s with hash := idx })
          else t4
        (t5, none)
    else
      if (t.slots (t.slots idx).hash).count ≤ 1 then (t, some Errno.EFAULT)
      else
        let t1 := updSlot t (t.slots idx).hash (fun s => { s with count := s.count - 1 })
        ((_remove_data t1 idx).1, none)

/-- `put` with explicit fuel for the self-recursion (the C code recurses
once after removing an existing key; fuel `≥ 2` suffices in every
well-formed state). -/
def putFuel (key value : List Nat) : Nat → QArr → QArr × Option Errno
  | 0, t => (t, some Errno.EFAULT)
  | fuel + 1, t =>
    if t.usedslots ≥ (t.maxslots : Int) then (t, some Errno.ENOBUFS)
    else
      let hash := qhashmurmur3_32 key % t.maxslots
      if (t.slots hash).count = 0 then
        _put_data t hash hash key value value.length 1
      else if 0 < (t.slots hash).count then
        match _get_idx t key hash with
        | some _ =>
          putFuel key value fuel (remove_ t key).1
        | none =>
          match _find_empty t hash with
          | none => (t, some Errno.ENOBUFS)
          | some idx =>
            match _put_data t idx hash key value value.length (-1) with
            | (t1, some e) => (t1, some e)
            | (t1, none) =>
              (updSlot t1 hash (fun s => { s with count := s.count + 1 }), none)
      else
        match _find_empty t (hash + 1) with
        | none => (t, some Errno.ENOBUFS)
        | some idx =>
          let t1 := (_copy_slot t idx hash).1
          let t2 := (_remove_slot t1 hash).1
          let t3 :=
            if (t2.slots idx).count = -2 then
              let ta := updSlot t2 (t2.slots idx).hash (fun s => { s with link := (idx : Int) })
              if (ta.slots idx).link ≠ -1 then
                updSlot ta (ta.slots idx).link.toNat (fun s => { s with hash := idx })
              else ta
            else t2
          _put_data t3 hash hash key value value.length 1

/-- `put(tbl, key, value, size)` with `size = value.length` (the model
ties the value buffer and its size together). -/
def put (t : QArr) (key value : List Nat) : QArr × Option Errno :=
  putFuel key value (t.maxslots + 2) t

/-- `get`: the stored value for `key` (`none` = `ENOENT`); the C function
also returns the value's size, which is the returned list's length. -/
def get (t : QArr) (key : List Nat) : Option (List Nat) :=
  let hash := qhashmurmur3_32 key % t.maxslots
  match _get_idx t key hash with
  | none => none
  | some idx => _get_data t idx

/-- One `getnext` call from cursor `idx`: skip empty and extension slots;
on the first pair/collision slot return the (possibly truncated) key
name, the reconstructed value, and the advanced cursor. -/
def getnextAux (t : QArr) : Nat → Nat → Option (List Nat × List Nat × Nat)
  | 0, _ => none
  | fuel + 1, idx =>
    if idx < t.maxslots then
      let s := t.slots idx
      if s.count = 0 ∨ s.count = -2 then getnextAux t fuel (idx + 1)
      else
        let keylen := min s.keylen _Q_HASHARR_KEYSIZE
        match _get_data t idx with
        | none => none
        | some data => some (s.key.take keylen, data, idx + 1)
    else none

/-- `getnext` from cursor `idx` (the scanning loop runs at most
`maxslots - idx` times, so `maxslots` fuel always suffices). -/
def getnext (t : QArr) (idx : Nat) : Option (List Nat × List Nat × Nat) :=
  getnextAux t t.maxslots idx

/-- Drive `getnext` to exhaustion from cursor 0, collecting the
(key name, value) pairs in cursor order. -/
def iterAllAux (t : QArr) : Nat → Nat → List (List Nat × List Nat)
  | 0, _ => []
  | fuel + 1, idx =>
    match getnext t idx with
    | none => []
    | some (name, data, idx1) => (name, data) :: iterAllAux t fuel idx1

/-- All iteration results starting from cursor 0. -/
def iterAll (t : QArr) : List (List Nat × List Nat) :=
  iterAllAux t (t.maxslots + 1) 0

/-- `size`: number of stored keys, plus the two out-parameters
(`maxslots`, `usedslots`). -/
def size (t : QArr) : Int × Nat × Int :=
  (t.num, t.maxslots, t.usedslots)

/-- `clear`: reset the counters and zero-fill the slot array — but only
when `usedslots` is non-zero; otherwise the call returns immediately. -/
def clear (t : QArr) : QArr :=
  if t.usedslots = 0 then t
  else { t with usedslots := 0, num := 0, slots := fun _ => zeroSlot }

/-! ## Descriptions of the states produced by the operations

The following definitions describe, in closed form, the slot chains that
`_put_data` writes by forward probing over empty slots; the proofs below
show that the operations produce exactly these states. -/

/-- Every slot of the table is marked empty (`count == 0`); the other
slot fields may hold arbitrary stale values.  This holds for a freshly
constructed table and is restored by removals. -/
def countsZero (t : QArr) : Prop :=
  ∀ i, i < t.maxslots → (t.slots i).count = 0

/-- Number of slots an entry with an `n`-byte value occupies: one pair
slot holding up to 32 value bytes, plus extension slots of 66 bytes each
(0 slots when `n = 0`, since the storing loop never runs). -/
def needSlots (n : Nat) : Nat :=
  if n = 0 then 0
  else 1 + (n - _Q_HASHARR_VALUESIZE + (SLOT_EXT_SIZE - 1)) / SLOT_EXT_SIZE

/-- Value capacity of the `j`-th slot of a chain. -/
def segCap (j : Nat) : Nat :=
  if j = 0 then _Q_HASHARR_VALUESIZE else SLOT_EXT_SIZE

/-- Offset of the first value byte stored in the `j`-th slot of a chain. -/
def segOff : Nat → Nat
  | 0 => 0
  | j + 1 => _Q_HASHARR_VALUESIZE + SLOT_EXT_SIZE * j

/-- Index of the `j`-th slot of a chain grown from `start` by forward
probing over an empty region (wrapping at `cap`). -/
def chainPos (cap start j : Nat) : Nat := (start + j) % cap

/-- Which chain slot (if any) an `m`-slot chain from `start` puts at
index `i`. -/
def chainIdx? (cap start : Nat) : Nat → Nat → Option Nat
  | 0, _ => none
  | m + 1, i =>
    match chainIdx? cap start m i with
    | some j => some j
    | none => if i = chainPos cap start m then some m else none

/-- The `j`-th slot of the `m`-slot chain `_put_data` writes at `start`
for an entry `key ↦ v` in bucket `hash` with collision discriminator
`cnt` (`1` for a bucket-leading entry, `-1` for a displaced one). -/
def chainSlot (cap start hash : Nat) (key v : List Nat) (cnt : Int) (m j : Nat) :
    Slot :=
  match j with
  | 0 =>
    { count := cnt, hash := hash,
      size := min (v.length - segOff 0) (segCap 0),
      link := if m = 1 then -1 else ((chainPos cap start 1 : Nat) : Int),
      key := strncpy16 key, keylen := key.length % 65536,
      keymd5 := qhashmd5 key,
      value := (v.drop (segOff 0)).take (min (v.length - segOff 0) (segCap 0)) }
  | i + 1 =>
    { count := -2, hash := chainPos cap start i,
      size := min (v.length - segOff (i + 1)) (segCap (i + 1)),
      link := if i + 1 = m - 1 then -1 else ((chainPos cap start (i + 2) : Nat) : Int),
      key := List.replicate 16 0, keylen := 0, keymd5 := List.replicate 16 0,
      value := (v.drop (segOff (i + 1))).take (min (v.length - segOff (i + 1)) (segCap (i + 1))) }

/-- The table after an `m`-slot chain for `key ↦ v` has been written at
`start` — with its first `z` slots freed again (the intermediate states
of `_remove_data`'s chain walk; `z = 0` is the fully live chain). -/
def chainStateZ (t : QArr) (start hash : Nat) (key v : List Nat) (cnt : Int)
    (m z : Nat) : QArr :=
  { maxslots := t.maxslots,
    usedslots := t.usedslots + m - z,
    num := t.num + 1,
    slots := fun i =>
      match chainIdx? t.maxslots start m i with
      | some j =>
        if j < z then { chainSlot t.maxslots start hash key v cnt m j with count := 0 }
        else chainSlot t.maxslots start hash key v cnt m j
      | none => t.slots i }

/-- The table after `_put_data` has written an `m`-slot chain for
`key ↦ v` at `start` over previously-empty slots: `usedslots` grows by
`m`, `num` by one. -/
def chainState (t : QArr) (start hash : Nat) (key v : List Nat) (cnt : Int)
    (m : Nat) : QArr :=
  chainStateZ t start hash key v cnt m 0

/-- The table after the chain has been fully removed again: every chain
slot is empty (with stale fields), the counters are back to their values
from before the chain was written. -/
def chainGone (t : QArr) (start hash : Nat) (key v : List Nat) (cnt : Int)
    (m : Nat) : QArr :=
  { chainStateZ t start hash key v cnt m m with num := t.num }

/-! ## Arithmetic of chain layouts -/

theorem segOff_succ (j : Nat) : segOff (j + 1) = segOff j + segCap j := by
  cases j with
  | zero => rfl
  | succ k =>
    simp only [segOff, segCap, _Q_HASHARR_VALUESIZE, SLOT_EXT_SIZE]
    rw [if_neg (Nat.succ_ne_zero k)]
    omega

theorem needSlots_pos {n : Nat} (h : 1 ≤ n) : 1 ≤ needSlots n := by
  unfold needSlots _Q_HASHARR_VALUESIZE SLOT_EXT_SIZE
  split <;> omega

theorem segOff_lt_iff {n j : Nat} (h : 1 ≤ n) : segOff j < n ↔ j < needSlots n := by
  unfold needSlots _Q_HASHARR_VALUESIZE SLOT_EXT_SIZE
  rw [if_neg (by omega)]
  cases j with
  | zero =>
    simp only [segOff]
    omega
  | succ k =>
    simp only [segOff, _Q_HASHARR_VALUESIZE, SLOT_EXT_SIZE]
    omega

theorem chainPos_lt {cap : Nat} (s j : Nat) (h : 0 < cap) : chainPos cap s j < cap :=
  Nat.mod_lt _ h

theorem chainPos_zero {cap s : Nat} (h : s < cap) : chainPos cap s 0 = s := by
  simp [chainPos, Nat.mod_eq_of_lt h]

theorem chainPos_inj {cap s a b : Nat} (ha : a < cap) (hb : b < cap)
    (h : chainPos cap s a = chainPos cap s b) : a = b := by
  unfold chainPos at h
  have h2 : a % cap = b % cap := Nat.ModEq.add_left_cancel' s h
  rwa [Nat.mod_eq_of_lt ha, Nat.mod_eq_of_lt hb] at h2

theorem wrapIdx {cap a : Nat} (h : a < cap) :
    (if a + 1 ≥ cap then 0 else a + 1) = (a + 1) % cap := by
  rcases Nat.lt_or_ge (a + 1) cap with hlt | hge
  · rw [if_neg (by omega), Nat.mod_eq_of_lt hlt]
  · have : a + 1 = cap := by omega
    rw [if_pos (by omega), this, Nat.mod_self]

theorem chainPos_succ {cap s : Nat} (j : Nat) :
    (chainPos cap s j + 1) % cap = chainPos cap s (j + 1) := by
  unfold chainPos
  rw [Nat.mod_add_mod, Nat.add_assoc]

theorem chainIdx?_none {cap s m i : Nat} (h : ∀ j, j < m → i ≠ chainPos cap s j) :
    chainIdx? cap s m i = none := by
  induction m with
  | zero => rfl
  | succ k ih =>
    unfold chainIdx?
    rw [ih (fun j hj => h j (by omega))]
    simp [h k (by omega)]

theorem chainIdx?_some {cap s m j : Nat} (hm : m ≤ cap) (hj : j < m) :
    chainIdx? cap s m (chainPos cap s j) = some j := by
  induction m with
  | zero => omega
  | succ k ih =>
    by_cases hjk : j < k
    · unfold chainIdx?
      rw [ih (by omega) hjk]
    · have hj' : j = k := by omega
      subst hj'
      unfold chainIdx?
      rw [chainIdx?_none (fun j' hj' heq => by
        have := chainPos_inj (a := j) (b := j') (by omega) (by omega) heq
        omega)]
      simp

/-! ## Access lemmas for table updates and chain states -/

theorem slots_setSlot_self (t : QArr) (i : Nat) (s : Slot) :
    (setSlot t i s).slots i = s := by simp [setSlot]

theorem slots_setSlot_ne (t : QArr) (i : Nat) (s : Slot) {j : Nat} (h : j ≠ i) :
    (setSlot t i s).slots j = t.slots j := by simp [setSlot, h]

theorem slots_updSlot_self (t : QArr) (i : Nat) (f : Slot → Slot) :
    (updSlot t i f).slots i = f (t.slots i) := by simp [updSlot, setSlot]

theorem slots_updSlot_ne (t : QArr) (i : Nat) (f : Slot → Slot) {j : Nat} (h : j ≠ i) :
    (updSlot t i f).slots j = t.slots j := by simp [updSlot, setSlot, h]

theorem chainStateZ_slots_at {t : QArr} {start hash : Nat} {key v : List Nat}
    {cnt : Int} {m z j : Nat} (hm : m ≤ t.maxslots) (hj : j < m) :
    (chainStateZ t start hash key v cnt m z).slots (chainPos t.maxslots start j)
      = (if j < z then
          { chainSlot t.maxslots start hash key v cnt m j with count := 0 }
         else chainSlot t.maxslots start hash key v cnt m j) := by
  unfold chainStateZ
  simp [chainIdx?_some hm hj]

theorem chainStateZ_slots_other {t : QArr} {start hash : Nat} {key v : List Nat}
    {cnt : Int} {m z i : Nat}
    (h : ∀ j, j < m → i ≠ chainPos t.maxslots start j) :
    (chainStateZ t start hash key v cnt m z).slots i = t.slots i := by
  unfold chainStateZ
  simp [chainIdx?_none h]

/-! ## Step lemmas for the bounded scans and chain walks -/

theorem findEmptyAux_hit {t : QArr} {start fuel idx : Nat}
    (h : (t.slots idx).count = 0) :
    findEmptyAux t start (fuel + 1) idx = some idx := by
  simp [findEmptyAux, h]

theorem findEmptyAux_step {t : QArr} {start fuel idx : Nat}
    (h : (t.slots idx).count ≠ 0)
    (h2 : (if idx + 1 ≥ t.maxslots then 0 else idx + 1) ≠ start) :
    findEmptyAux t start (fuel + 1) idx
      = findEmptyAux t start fuel (if idx + 1 ≥ t.maxslots then 0 else idx + 1) := by
  simp only [findEmptyAux, h, if_false, if_neg h2]

theorem findEmptyAux_break {t : QArr} {start fuel idx : Nat}
    (h : (t.slots idx).count ≠ 0)
    (h2 : (if idx + 1 ≥ t.maxslots then 0 else idx + 1) = start) :
    findEmptyAux t start (fuel + 1) idx = none := by
  simp [findEmptyAux, h, h2]

theorem find_empty_immediate {t : QArr} {s : Nat} (hcap : 0 < t.maxslots)
    (hs : s ≤ t.maxslots)
    (hempty : (t.slots (s % t.maxslots)).count = 0) :
    _find_empty t s = some (s % t.maxslots) := by
  have hs' : (if s ≥ t.maxslots then 0 else s) = s % t.maxslots := by
    rcases Nat.lt_or_ge s t.maxslots with h | h
    · rw [if_neg (by omega), Nat.mod_eq_of_lt h]
    · have he : s = t.maxslots := by omega
      rw [if_pos (by omega), he, Nat.mod_self]
  obtain ⟨f, hf⟩ : ∃ f, t.maxslots = f + 1 := ⟨t.maxslots - 1, by omega⟩
  unfold _find_empty
  rw [hs', hf]
  exact findEmptyAux_hit (by rw [← hf]; exact hempty)

theorem get_idx_unfold {t : QArr} {key : List Nat} {hash : Nat}
    (h : 0 < (t.slots hash).count) :
    _get_idx t key hash = getIdxAux t key hash t.maxslots hash 0 := by
  simp [_get_idx, h]

theorem get_idx_neg {t : QArr} {key : List Nat} {hash : Nat}
    (h : ¬ 0 < (t.slots hash).count) : _get_idx t key hash = none := by
  simp [_get_idx, h]

theorem getIdxAux_found {t : QArr} {key : List Nat} {hash fuel idx : Nat} {cnt : Int}
    (hcnt : cnt < (t.slots hash).count)
    (hhit : (t.slots idx).hash = hash ∧ (0 < (t.slots idx).count ∨ (t.slots idx).count = -1))
    (hmatch : keyMatches key (t.slots idx) = true) :
    getIdxAux t key hash (fuel + 1) idx cnt = some idx := by
  simp [getIdxAux, hcnt, hhit, hmatch]

theorem getIdxAux_nomatch {t : QArr} {key : List Nat} {hash fuel idx : Nat} {cnt : Int}
    (hcnt : cnt < (t.slots hash).count)
    (hhit : (t.slots idx).hash = hash ∧ (0 < (t.slots idx).count ∨ (t.slots idx).count = -1))
    (hmatch : keyMatches key (t.slots idx) = false)
    (hne : (if idx + 1 ≥ t.maxslots then 0 else idx + 1) ≠ hash) :
    getIdxAux t key hash (fuel + 1) idx cnt
      = getIdxAux t key hash fuel (if idx + 1 ≥ t.maxslots then 0 else idx + 1) (cnt + 1) := by
  simp [getIdxAux, hcnt, hhit, hmatch, hne]

theorem getIdxAux_skip {t : QArr} {key : List Nat} {hash fuel idx : Nat} {cnt : Int}
    (hcnt : cnt < (t.slots hash).count)
    (hnothit : ¬((t.slots idx).hash = hash ∧ (0 < (t.slots idx).count ∨ (t.slots idx).count = -1)))
    (hne : (if idx + 1 ≥ t.maxslots then 0 else idx + 1) ≠ hash) :
    getIdxAux t key hash (fuel + 1) idx cnt
      = getIdxAux t key hash fuel (if idx + 1 ≥ t.maxslots then 0 else idx + 1) cnt := by
  simp [getIdxAux, hcnt, hnothit, hne]

theorem getIdxAux_stop {t : QArr} {key : List Nat} {hash fuel idx : Nat} {cnt : Int}
    (hcnt : ¬ cnt < (t.slots hash).count) :
    getIdxAux t key hash (fuel + 1) idx cnt = none := by
  simp [getIdxAux, hcnt]

theorem get_idx_first {t : QArr} {key : List Nat} {hash : Nat}
    (hcap : 0 < t.maxslots) (hpos : 0 < (t.slots hash).count)
    (hhash : (t.slots hash).hash = hash)
    (hm : keyMatches key (t.slots hash) = true) :
    _get_idx t key hash = some hash := by
  rw [get_idx_unfold hpos]
  obtain ⟨f, hf⟩ : ∃ f, t.maxslots = f + 1 := ⟨t.maxslots - 1, by omega⟩
  rw [hf]
  exact getIdxAux_found hpos ⟨hhash, Or.inl hpos⟩ hm

theorem getDataAux_last {t : QArr} {fuel idx : Nat} (h : (t.slots idx).link = -1) :
    getDataAux t (fuel + 1) idx = some ((t.slots idx).value.take (t.slots idx).size) := by
  simp [getDataAux, h]

theorem getDataAux_step {t : QArr} {fuel idx : Nat} (h : (t.slots idx).link ≠ -1) :
    getDataAux t (fuel + 1) idx =
      match getDataAux t fuel (t.slots idx).link.toNat with
      | some rest => some ((t.slots idx).value.take (t.slots idx).size ++ rest)
      | none => none := by
  simp only [getDataAux, if_neg h]

theorem removeDataLoop_last {t : QArr} {fuel idx : Nat} (h : (t.slots idx).link = -1) :
    removeDataLoop t (fuel + 1) idx = (_remove_slot t idx).1 := by
  simp [removeDataLoop, h]

theorem removeDataLoop_step {t : QArr} {fuel idx : Nat} (h : (t.slots idx).link ≠ -1) :
    removeDataLoop t (fuel + 1) idx
      = removeDataLoop (_remove_slot t idx).1 fuel (t.slots idx).link.toNat := by
  simp only [removeDataLoop, if_neg h]

theorem findDupAux_hit {t : QArr} {hash stop fuel idx2 : Nat}
    (hlt : idx2 < t.maxslots) (hne : idx2 ≠ stop)
    (hc : (t.slots idx2).count = -1 ∧ (t.slots idx2).hash = hash) :
    findDupAux t hash stop (fuel + 1) idx2 = some idx2 := by
  simp [findDupAux, Nat.not_le_of_lt hlt, hne, hc]

theorem findDupAux_skip {t : QArr} {hash stop fuel idx2 : Nat}
    (hlt : idx2 < t.maxslots) (hne : idx2 ≠ stop)
    (hc : ¬((t.slots idx2).count = -1 ∧ (t.slots idx2).hash = hash)) :
    findDupAux t hash stop (fuel + 1) idx2 = findDupAux t hash stop fuel (idx2 + 1) := by
  simp [findDupAux, Nat.not_le_of_lt hlt, hne, hc]

theorem getnextAux_stop {t : QArr} {fuel idx : Nat} (h : ¬ idx < t.maxslots) :
    getnextAux t (fuel + 1) idx = none := by
  simp [getnextAux, h]

theorem getnextAux_skip {t : QArr} {fuel idx : Nat} (hlt : idx < t.maxslots)
    (h : (t.slots idx).count = 0 ∨ (t.slots idx).count = -2) :
    getnextAux t (fuel + 1) idx = getnextAux t fuel (idx + 1) := by
  simp [getnextAux, hlt, h]

theorem getnextAux_yield {t : QArr} {fuel idx : Nat} (hlt : idx < t.maxslots)
    (h : ¬((t.slots idx).count = 0 ∨ (t.slots idx).count = -2)) :
    getnextAux t (fuel + 1) idx =
      match _get_data t idx with
      | none => none
      | some data =>
        some ((t.slots idx).key.take (min (t.slots idx).keylen _Q_HASHARR_KEYSIZE),
              data, idx + 1) := by
  simp only [getnextAux, if_pos hlt, if_neg h]

/-! ## Key comparison lemmas -/

theorem take_strncpy16 {key : List Nat} {n : Nat} (h : n ≤ key.length) (h16 : n ≤ 16) :
    (strncpy16 key).take n = key.take n := by
  unfold strncpy16 _Q_HASHARR_KEYSIZE
  rw [List.take_append_of_le_length (by simp [List.length_take]; omega)]
  rw [List.take_take, min_eq_left h16]

theorem keyMatches_self {key : List Nat} {cap start hash : Nat} {v : List Nat}
    {cnt : Int} {m : Nat} (hlen : key.length < 65536) :
    keyMatches key (chainSlot cap start hash key v cnt m 0) = true := by
  simp only [keyMatches, chainSlot, _Q_HASHARR_KEYSIZE]
  rw [Nat.mod_eq_of_lt hlen, if_pos rfl]
  rcases le_or_lt key.length 16 with h16 | h16
  · rw [if_pos h16, take_strncpy16 (le_refl _) h16]
    simp
  · rw [if_neg (by omega)]
    rw [take_strncpy16 (by omega) (by omega)]
    simp

theorem keyMatches_ne_short {k1 k2 : List Nat} {cap start hash : Nat} {v : List Nat}
    {cnt : Int} {m : Nat} (h2 : k2.length ≤ 16) (hne : k2 ≠ k1)
    (h1 : k1.length < 65536) :
    keyMatches k2 (chainSlot cap start hash k1 v cnt m 0) = false := by
  simp only [keyMatches, chainSlot, _Q_HASHARR_KEYSIZE]
  rw [Nat.mod_eq_of_lt h1]
  rcases eq_or_ne k2.length k1.length with hlen | hlen
  · rw [if_pos hlen, if_pos h2, take_strncpy16 (by omega) (by omega)]
    rw [List.take_of_length_le (le_refl _), List.take_of_length_le (by omega)]
    simp [hne]
  · rw [if_neg hlen]

theorem keyMatches_ne_md5 {k1 k2 : List Nat} {cap start hash : Nat} {v : List Nat}
    {cnt : Int} {m : Nat} (h1 : k1.length < 65536) (h2 : 16 < k2.length)
    (hmd5 : qhashmd5 k2 ≠ qhashmd5 k1) :
    keyMatches k2 (chainSlot cap start hash k1 v cnt m 0) = false := by
  simp only [keyMatches, chainSlot, _Q_HASHARR_KEYSIZE]
  rw [Nat.mod_eq_of_lt h1]
  rcases eq_or_ne k2.length k1.length with hlen | hlen
  · rw [if_pos hlen, if_neg (by omega)]
    simp [hmd5]
  · rw [if_neg hlen]

/-! ## Projection lemmas -/

@[simp] theorem maxslots_setSlot (t : QArr) (i : Nat) (s : Slot) :
    (setSlot t i s).maxslots = t.maxslots := rfl

@[simp] theorem usedslots_setSlot (t : QArr) (i : Nat) (s : Slot) :
    (setSlot t i s).usedslots = t.usedslots := rfl

@[simp] theorem num_setSlot (t : QArr) (i : Nat) (s : Slot) :
    (setSlot t i s).num = t.num := rfl

@[simp] theorem maxslots_updSlot (t : QArr) (i : Nat) (f : Slot → Slot) :
    (updSlot t i f).maxslots = t.maxslots := rfl

@[simp] theorem usedslots_updSlot (t : QArr) (i : Nat) (f : Slot → Slot) :
    (updSlot t i f).usedslots = t.usedslots := rfl

@[simp] theorem num_updSlot (t : QArr) (i : Nat) (f : Slot → Slot) :
    (updSlot t i f).num = t.num := rfl

@[simp] theorem maxslots_chainStateZ (t : QArr) (start hash : Nat) (key v : List Nat)
    (cnt : Int) (m z : Nat) :
    (chainStateZ t start hash key v cnt m z).maxslots = t.maxslots := rfl

@[simp] theorem usedslots_chainStateZ (t : QArr) (start hash : Nat) (key v : List Nat)
    (cnt : Int) (m z : Nat) :
    (chainStateZ t start hash key v cnt m z).usedslots = t.usedslots + m - z := rfl

@[simp] theorem num_chainStateZ (t : QArr) (start hash : Nat) (key v : List Nat)
    (cnt : Int) (m z : Nat) :
    (chainStateZ t start hash key v cnt m z).num = t.num + 1 := rfl

/-! ## More chain arithmetic -/

theorem segOff_ge_32 {j : Nat} (h : 1 ≤ j) : 32 ≤ segOff j := by
  cases j with
  | zero => omega
  | succ k =>
    simp only [segOff, _Q_HASHARR_VALUESIZE]
    omega

theorem needSlots_le {n : Nat} (h : 1 ≤ n) : needSlots n ≤ n := by
  unfold needSlots _Q_HASHARR_VALUESIZE SLOT_EXT_SIZE
  rw [if_neg (by omega)]
  omega

theorem segCap_succ (j : Nat) : segCap (j + 1) = SLOT_EXT_SIZE := by
  simp [segCap]

/-- When every slot is occupied, `_find_empty` reports failure
(the C function returns `-1`). -/
theorem find_empty_none {t : QArr} {s : Nat} (hcap : 0 < t.maxslots)
    (hall : ∀ i, i < t.maxslots → (t.slots i).count ≠ 0) :
    _find_empty t s = none := by
  suffices haux : ∀ fuel idx, idx < t.maxslots →
      findEmptyAux t (if s ≥ t.maxslots then 0 else s) fuel idx = none by
    unfold _find_empty
    apply haux
    split <;> omega
  intro fuel
  induction fuel with
  | zero => intro idx _; rfl
  | succ f ih =>
    intro idx hidx
    by_cases hstop : (if idx + 1 ≥ t.maxslots then 0 else idx + 1)
        = (if s ≥ t.maxslots then 0 else s)
    · exact findEmptyAux_break (hall idx hidx) hstop
    · rw [findEmptyAux_step (hall idx hidx) hstop]
      apply ih
      split <;> omega

/-! ## Removing a stored chain -/

theorem chainSlot_count_ne {cap start hash : Nat} {key v : List Nat} {cnt : Int}
    {m z : Nat} (hcnt : cnt ≠ 0) :
    (chainSlot cap start hash key v cnt m z).count ≠ 0 := by
  cases z with
  | zero => exact hcnt
  | succ i => simp [chainSlot]

theorem remove_slot_chainStateZ {t : QArr} {start hash : Nat} {key v : List Nat}
    {cnt : Int} {q z : Nat}
    (hq : q ≤ t.maxslots) (hz : z < q) (hcnt : cnt ≠ 0) :
    (_remove_slot (chainStateZ t start hash key v cnt q z)
        (chainPos t.maxslots start z)).1
      = chainStateZ t start hash key v cnt q (z + 1) := by
  have hcap : 0 < t.maxslots := by omega
  have hat : (chainStateZ t start hash key v cnt q z).slots
      (chainPos t.maxslots start z) = chainSlot t.maxslots start hash key v cnt q z := by
    rw [chainStateZ_slots_at hq hz, if_neg (lt_irrefl z)]
  unfold _remove_slot
  rw [if_neg (by rw [hat]; exact chainSlot_count_ne hcnt)]
  apply QArr.ext
  · rfl
  · show (chainStateZ t start hash key v cnt q z).usedslots - 1 = _
    simp only [usedslots_chainStateZ]
    omega
  · rfl
  · funext i
    show (updSlot (chainStateZ t start hash key v cnt q z)
      (chainPos t.maxslots start z) (fun s => { s with count := 0 })).slots i = _
    by_cases hi : ∃ j, j < q ∧ i = chainPos t.maxslots start j
    · obtain ⟨j, hj, rfl⟩ := hi
      rw [chainStateZ_slots_at hq hj]
      by_cases hjz : j = z
      · subst hjz
        rw [slots_updSlot_self, hat, if_pos (by omega)]
      · have hne : chainPos t.maxslots start j ≠ chainPos t.maxslots start z :=
          fun h => hjz (chainPos_inj (by omega) (by omega) h)
        rw [slots_updSlot_ne _ _ _ hne, chainStateZ_slots_at hq hj]
        by_cases hlt : j < z
        · rw [if_pos hlt, if_pos (by omega)]
        · rw [if_neg hlt, if_neg (by omega)]
    · push_neg at hi
      have hne : i ≠ chainPos t.maxslots start z := hi z hz
      rw [slots_updSlot_ne _ _ _ hne,
        chainStateZ_slots_other (fun j hj => hi j hj),
        chainStateZ_slots_other (fun j hj => hi j hj)]

theorem chainSlot_link_last {cap start hash : Nat} {key v : List Nat} {cnt : Int}
    {q z : Nat} (hz : z + 1 = q) :
    (chainSlot cap start hash key v cnt q z).link = -1 := by
  cases z with
  | zero =>
    simp only [chainSlot]
    rw [if_pos (by omega)]
  | succ i =>
    simp only [chainSlot]
    rw [if_pos (by omega)]

theorem chainSlot_link_mid {cap start hash : Nat} {key v : List Nat} {cnt : Int}
    {q z : Nat} (hz : z + 1 < q) :
    (chainSlot cap start hash key v cnt q z).link
      = ((chainPos cap start (z + 1) : Nat) : Int) := by
  cases z with
  | zero =>
    simp only [chainSlot]
    rw [if_neg (by omega)]
  | succ i =>
    simp only [chainSlot]
    rw [if_neg (by omega)]

theorem removeDataLoop_chain {t : QArr} {start hash : Nat} {key v : List Nat}
    {cnt : Int} {q : Nat}
    (hq : q ≤ t.maxslots) (hcnt : cnt ≠ 0) (k : Nat) :
    ∀ z fuel, z < q → q - z = k + 1 → k + 1 ≤ fuel →
    removeDataLoop (chainStateZ t start hash key v cnt q z) fuel
        (chainPos t.maxslots start z)
      = chainStateZ t start hash key v cnt q q := by
  induction k with
  | zero =>
    intro z fuel hz hqz hfuel
    obtain ⟨f, rfl⟩ : ∃ f, fuel = f + 1 := ⟨fuel - 1, by omega⟩
    have hat : (chainStateZ t start hash key v cnt q z).slots
        (chainPos t.maxslots start z) = chainSlot t.maxslots start hash key v cnt q z := by
      rw [chainStateZ_slots_at hq hz, if_neg (lt_irrefl z)]
    rw [removeDataLoop_last (by rw [hat]; exact chainSlot_link_last (by omega))]
    rw [remove_slot_chainStateZ hq hz hcnt]
    have : z + 1 = q := by omega
    rw [this]
  | succ k ih =>
    intro z fuel hz hqz hfuel
    obtain ⟨f, rfl⟩ : ∃ f, fuel = f + 1 := ⟨fuel - 1, by omega⟩
    have hat : (chainStateZ t start hash key v cnt q z).slots
        (chainPos t.maxslots start z) = chainSlot t.maxslots start hash key v cnt q z := by
      rw [chainStateZ_slots_at hq hz, if_neg (lt_irrefl z)]
    have hlink : ((chainStateZ t start hash key v cnt q z).slots
        (chainPos t.maxslots start z)).link
        = ((chainPos t.maxslots start (z + 1) : Nat) : Int) := by
      rw [hat]
      exact chainSlot_link_mid (by omega)
    have hlinkne : ((chainStateZ t start hash key v cnt q z).slots
        (chainPos t.maxslots start z)).link ≠ -1 := by
      rw [hlink]
      omega
    rw [removeDataLoop_step hlinkne, hlink,
      remove_slot_chainStateZ hq hz hcnt, Int.toNat_ofNat]
    exact ih (z + 1) f (by omega) (by omega) (by omega)

theorem remove_data_chain {t : QArr} {start hash : Nat} {key v : List Nat}
    {cnt : Int} {m : Nat}
    (hstart : start < t.maxslots) (hm1 : 1 ≤ m) (hm : m ≤ t.maxslots)
    (hcnt : cnt ≠ 0) :
    _remove_data (chainState t start hash key v cnt m) start
      = (chainGone t start hash key v cnt m, true) := by
  have hcap : 0 < t.maxslots := by omega
  have hpos0 : chainPos t.maxslots start 0 = start := chainPos_zero hstart
  have hat : (chainState t start hash key v cnt m).slots start
      = chainSlot t.maxslots start hash key v cnt m 0 := by
    have h0 := @chainStateZ_slots_at t start hash key v cnt m 0 0 hm (by omega)
    rw [hpos0, if_neg (lt_irrefl 0)] at h0
    rw [chainState, h0]
  have hloop := @removeDataLoop_chain t start hash key v cnt m hm hcnt (m - 1) 0
    (t.maxslots + 1) (by omega) (by omega) (by omega)
  rw [hpos0] at hloop
  unfold _remove_data
  rw [if_neg (by rw [hat]; exact chainSlot_count_ne hcnt)]
  unfold chainState
  simp only [maxslots_chainStateZ]
  rw [hloop]
  unfold chainGone
  congr 1
  apply QArr.ext
  · rfl
  · rfl
  · show (chainStateZ t start hash key v cnt m m).num - 1 = _
    simp only [num_chainStateZ]
    omega
  · rfl

/-! ## Writing a chain: the value-storing loop of `_put_data` -/

theorem segCap_of_pos {j : Nat} (h : 1 ≤ j) : segCap j = SLOT_EXT_SIZE := by
  cases j with
  | zero => omega
  | succ i => simp [segCap]

@[simp] theorem extSlotInit_count (p : Nat) : (extSlotInit p).count = -2 := rfl

@[simp] theorem extSlotInit_link (p : Nat) : (extSlotInit p).link = -1 := rfl

@[simp] theorem extSlotInit_hash (p : Nat) : (extSlotInit p).hash = p := rfl

@[simp] theorem extSlotInit_size (p : Nat) : (extSlotInit p).size = 0 := rfl

theorem slots_withUsed (X : QArr) (u : Int) :
    ({ X with usedslots := u }).slots = X.slots := rfl

/-- Every field of a chain slot except `link` is independent of the
chain length `m`. -/
theorem chainSlot_eq_of_link {cap start hash : Nat} {key v : List Nat} {cnt : Int}
    {m1 m2 j : Nat}
    (h : (chainSlot cap start hash key v cnt m1 j).link
      = (chainSlot cap start hash key v cnt m2 j).link) :
    chainSlot cap start hash key v cnt m1 j = chainSlot cap start hash key v cnt m2 j := by
  cases j <;> simp_all [chainSlot]

/-- Overwriting the `link` of a chain slot with the link another chain
length prescribes yields that chain's slot. -/
theorem updLink_chainSlot {cap start hash : Nat} {key v : List Nat} {cnt : Int}
    {m1 m2 j : Nat} {l : Int}
    (h : (chainSlot cap start hash key v cnt m2 j).link = l) :
    { chainSlot cap start hash key v cnt m1 j with link := l }
      = chainSlot cap start hash key v cnt m2 j := by
  cases j <;> simp_all [chainSlot]

/-- One iteration of the storing loop: with the first `j` chain slots
written and bytes remaining, the loop allocates the next extension slot
at the next probe position and links it in. -/
theorem putDataLoop_iter {t : QArr} {start hash : Nat} {key v : List Nat}
    {cnt : Int} {j : Nat} (f : Nat)
    (_hstart : start < t.maxslots)
    (hj : 1 ≤ j) (hjcap : j < t.maxslots)
    (hsav : segOff j < v.length)
    (hempty : (t.slots (chainPos t.maxslots start j)).count = 0) :
    putDataLoop start v v.length (f + 1) (chainState t start hash key v cnt j)
        (chainPos t.maxslots start (j - 1)) (segOff j)
      = putDataLoop start v v.length f (chainState t start hash key v cnt (j + 1))
        (chainPos t.maxslots start j) (min v.length (segOff (j + 1))) := by
  obtain ⟨i, rfl⟩ : ∃ i, j = i + 1 := ⟨j - 1, by omega⟩
  have hcap : 0 < t.maxslots := by omega
  have hpred : i + 1 - 1 = i := by omega
  have hposlt : ∀ a : Nat, chainPos t.maxslots start a < t.maxslots :=
    fun a => chainPos_lt _ _ hcap
  have hinj : ∀ a b : Nat, a < t.maxslots → b < t.maxslots →
      chainPos t.maxslots start a = chainPos t.maxslots start b → a = b :=
    fun a b ha hb => chainPos_inj ha hb
  have hne1 : chainPos t.maxslots start (i + 1) ≠ chainPos t.maxslots start i := by
    intro h
    have := hinj _ _ (by omega) (by omega) h
    omega
  have hother : (chainState t start hash key v cnt (i + 1)).slots
      (chainPos t.maxslots start (i + 1)) = t.slots (chainPos t.maxslots start (i + 1)) := by
    apply chainStateZ_slots_other
    intro j' hj' heq
    have := hinj _ _ (by omega) (by omega) heq
    omega
  have hfind : _find_empty (chainState t start hash key v cnt (i + 1))
      (chainPos t.maxslots start i + 1) = some (chainPos t.maxslots start (i + 1)) := by
    have hwrap : (chainPos t.maxslots start i + 1) % t.maxslots
        = chainPos t.maxslots start (i + 1) := chainPos_succ i
    have h1 : (chainState t start hash key v cnt (i + 1)).maxslots = t.maxslots := rfl
    have h2 := find_empty_immediate (t := chainState t start hash key v cnt (i + 1))
      (s := chainPos t.maxslots start i + 1) (by rw [h1]; omega)
      (by rw [h1]; have := hposlt i; omega)
      (by rw [h1, hwrap, hother, hempty])
    rwa [h1, hwrap] at h2
  have hsavpos : 0 < segOff (i + 1) := by
    have := segOff_ge_32 (j := i + 1) (by omega)
    omega
  have hm2 : i + 1 + 1 ≤ t.maxslots := by omega
  have hslotext : (updSlot (setSlot (chainState t start hash key v cnt (i + 1))
      (chainPos t.maxslots start (i + 1)) (extSlotInit (chainPos t.maxslots start i)))
      (chainPos t.maxslots start i)
      (fun s => { s with link := ((chainPos t.maxslots start (i + 1) : Nat) : Int) })).slots
        (chainPos t.maxslots start (i + 1))
      = extSlotInit (chainPos t.maxslots start i) := by
    rw [slots_updSlot_ne _ _ _ hne1, slots_setSlot_self]
  rw [hpred]
  simp only [putDataLoop, if_pos hsav, if_pos hsavpos, hfind, hslotext,
    extSlotInit_count, if_true]
  congr 1
  · apply QArr.ext
    · rfl
    · show (chainState t start hash key v cnt (i + 1)).usedslots + 1 = _
      simp only [chainState, usedslots_chainStateZ]
      push_cast
      ring
    · rfl
    · funext x
      rw [slots_withUsed]
      simp only [chainState] at hslotext ⊢
      by_cases hx : ∃ a, a < i + 1 + 1 ∧ x = chainPos t.maxslots start a
      · obtain ⟨a, ha, rfl⟩ := hx
        have hr := @chainStateZ_slots_at t start hash key v cnt (i + 1 + 1) 0 a hm2 ha
        rw [if_neg (by omega)] at hr
        rw [hr]
        by_cases ha1 : a = i + 1
        · subst ha1
          rw [slots_updSlot_self, hslotext]
          have hcapj := segCap_of_pos (j := i + 1) (by omega)
          simp only [chainSlot, extSlotInit, zeroSlot]
          rw [if_pos (show i + 1 = i + 1 + 1 - 1 by omega), hcapj]
        · have hnea : chainPos t.maxslots start a ≠ chainPos t.maxslots start (i + 1) := by
            intro h
            exact ha1 (hinj _ _ (by omega) (by omega) h)
          rw [slots_updSlot_ne _ _ _ hnea]
          by_cases hai : a = i
          · subst hai
            rw [slots_updSlot_self]
            rw [slots_setSlot_ne _ _ _ hnea]
            have hl := @chainStateZ_slots_at t start hash key v cnt (a + 1) 0 a hjcap.le (by omega)
            rw [if_neg (by omega)] at hl
            rw [hl]
            apply updLink_chainSlot
            exact chainSlot_link_mid (by omega)
          · have hnea2 : chainPos t.maxslots start a ≠ chainPos t.maxslots start i := by
              intro h
              exact hai (hinj _ _ (by omega) (by omega) h)
            rw [slots_updSlot_ne _ _ _ hnea2, slots_setSlot_ne _ _ _ hnea]
            have halt : a < i + 1 := by omega
            have hl := @chainStateZ_slots_at t start hash key v cnt (i + 1) 0 a hjcap.le halt
            rw [if_neg (by omega)] at hl
            rw [hl]
            apply chainSlot_eq_of_link
            rw [chainSlot_link_mid (by omega), chainSlot_link_mid (by omega)]
      · push_neg at hx
        have hxne1 : x ≠ chainPos t.maxslots start (i + 1) := hx (i + 1) (by omega)
        have hxnei : x ≠ chainPos t.maxslots start i := hx i (by omega)
        rw [slots_updSlot_ne _ _ _ hxne1, slots_updSlot_ne _ _ _ hxnei,
          slots_setSlot_ne _ _ _ hxne1]
        rw [chainStateZ_slots_other (fun a ha => hx a (by omega)),
          chainStateZ_slots_other (fun a ha => hx a ha)]
  · have h1 := segOff_succ (i + 1)
    have h2 := segCap_of_pos (j := i + 1) (by omega)
    omega

/-- The storing loop, entered with `j ≥ 1` chain slots already written,
completes the chain over the empty probe region. -/
theorem putDataLoop_chain {t : QArr} {start hash : Nat} {key v : List Nat} {cnt : Int}
    (hstart : start < t.maxslots) (hv : 1 ≤ v.length)
    (hm : needSlots v.length ≤ t.maxslots)
    (hempty : ∀ a, a < needSlots v.length →
      (t.slots (chainPos t.maxslots start a)).count = 0)
    (k : Nat) :
    ∀ j fuel, 1 ≤ j → j ≤ needSlots v.length → needSlots v.length - j = k →
      k + 1 ≤ fuel →
    putDataLoop start v v.length fuel (chainState t start hash key v cnt j)
        (chainPos t.maxslots start (j - 1)) (min v.length (segOff j))
      = (chainState t start hash key v cnt (needSlots v.length), none) := by
  induction k with
  | zero =>
    intro j fuel hj hjm hk hfuel
    obtain ⟨f, rfl⟩ : ∃ f, fuel = f + 1 := ⟨fuel - 1, by omega⟩
    have hjm' : j = needSlots v.length := by omega
    have hstop : ¬ min v.length (segOff j) < v.length := by
      have : ¬ segOff j < v.length := by
        rw [segOff_lt_iff hv]
        omega
      omega
    simp only [putDataLoop]
    rw [if_neg hstop, hjm']
  | succ k ih =>
    intro j fuel hj hjm hk hfuel
    have hjlt : j < needSlots v.length := by omega
    have hsav : segOff j < v.length := (segOff_lt_iff hv).2 hjlt
    have hminsav : min v.length (segOff j) = segOff j := by omega
    obtain ⟨f, rfl⟩ : ∃ f, fuel = f + 1 := ⟨fuel - 1, by omega⟩
    rw [hminsav]
    rw [putDataLoop_iter f hstart hj (by omega) hsav (hempty j hjlt)]
    have h2 := ih (j + 1) f (by omega) (by omega) (by omega) (by omega)
    rw [show j + 1 - 1 = j from rfl] at h2
    exact h2

/-- `_put_data` writes exactly the chain state when the probe region is
empty and the value fits. -/
theorem put_data_chain {t : QArr} {start hash : Nat} {key v : List Nat} {cnt : Int}
    (hstart : start < t.maxslots) (hcnt : cnt = 1 ∨ cnt = -1)
    (hv : 1 ≤ v.length) (hm : needSlots v.length ≤ t.maxslots)
    (hempty : ∀ a, a < needSlots v.length →
      (t.slots (chainPos t.maxslots start a)).count = 0) :
    _put_data t start hash key v v.length cnt
      = (chainState t start hash key v cnt (needSlots v.length), none) := by
  have hm1 : 1 ≤ needSlots v.length := needSlots_pos hv
  have hcap : 0 < t.maxslots := by omega
  have hc0 : (t.slots start).count = 0 := by
    have := hempty 0 (by omega)
    rwa [chainPos_zero hstart] at this
  unfold _put_data
  rw [if_neg (by rw [hc0]; exact fun h => h rfl)]
  have hfst : ((updSlot t start (fun s =>
      { s with count := cnt, hash := hash, key := strncpy16 key,
               keymd5 := qhashmd5 key, keylen := key.length % 65536,
               link := -1 })).slots start).count = cnt := by
    rw [slots_updSlot_self]
  have hcne : cnt ≠ -2 := by
    rcases hcnt with h | h <;> subst h <;> decide
  simp only [putDataLoop]
  rw [if_pos (by omega : (0 : Nat) < v.length), if_neg (lt_irrefl 0)]
  simp only [hfst, if_neg hcne]
  have hstate : ({ { updSlot (updSlot t start (fun s =>
      { s with count := cnt, hash := hash, key := strncpy16 key,
               keymd5 := qhashmd5 key, keylen := key.length % 65536,
               link := -1 })) start (fun s =>
      { s with value := (v.drop 0).take (min (v.length - 0) _Q_HASHARR_VALUESIZE),
               size := min (v.length - 0) _Q_HASHARR_VALUESIZE })
      with num := t.num + 1 } with usedslots := t.usedslots + 1 } : QArr)
      = chainState t start hash key v cnt 1 := by
    apply QArr.ext
    · rfl
    · show t.usedslots + 1 = t.usedslots + (1 : Nat) - (0 : Nat)
      push_cast
      ring
    · rfl
    · funext x
      dsimp only
      by_cases hx : x = start
      · subst hx
        rw [slots_updSlot_self, slots_updSlot_self]
        have h0 := @chainStateZ_slots_at t x hash key v cnt 1 0 0 (by omega) (by omega)
        rw [if_neg (by omega), chainPos_zero hstart] at h0
        rw [chainState, h0]
        simp only [chainSlot, segOff, segCap, Nat.sub_zero, List.drop_zero, if_true]
      · rw [slots_updSlot_ne _ _ _ hx, slots_updSlot_ne _ _ _ hx]
        rw [chainState, chainStateZ_slots_other (fun a ha hxa => by
          have ha0 : a = 0 := by omega
          subst ha0
          rw [chainPos_zero hstart] at hxa
          exact hx hxa)]
  have hsave : 0 + min (v.length - 0) _Q_HASHARR_VALUESIZE
      = min v.length (segOff 1) := by
    simp only [segOff, _Q_HASHARR_VALUESIZE]
    omega
  rw [hsave]
  have hloop := @putDataLoop_chain t start hash key v cnt hstart hv hm hempty
    (needSlots v.length - 1) 1 v.length (by omega) (by omega) (by omega) (by
      have := needSlots_le hv
      omega)
  rw [show (1 : Nat) - 1 = 0 from rfl, chainPos_zero hstart] at hloop
  rw [← hstate] at hloop
  exact hloop

/-- The bucket index `put`, `get` and `remove` compute for a key. -/
theorem bucket_lt {key : List Nat} {t : QArr} (h : 0 < t.maxslots) :
    qhashmurmur3_32 key % t.maxslots < t.maxslots := Nat.mod_lt _ h

/-- Case A of `put`: the bucket's slot is empty (count 0) and so is the
probe region the chain needs; `put` writes the chain and succeeds. -/
theorem put_empty_bucket {t : QArr} {key v : List Nat} (fuel : Nat)
    (hused : t.usedslots < (t.maxslots : Int))
    (hv : 1 ≤ v.length) (hm : needSlots v.length ≤ t.maxslots)
    (hempty : ∀ a, a < needSlots v.length →
      (t.slots (chainPos t.maxslots (qhashmurmur3_32 key % t.maxslots) a)).count = 0) :
    putFuel key v (fuel + 1) t
      = (chainState t (qhashmurmur3_32 key % t.maxslots)
          (qhashmurmur3_32 key % t.maxslots) key v 1 (needSlots v.length), none) := by
  have hcap : 0 < t.maxslots := by
    have := needSlots_pos hv
    omega
  have hc0 : (t.slots (qhashmurmur3_32 key % t.maxslots)).count = 0 := by
    have := hempty 0 (by have := needSlots_pos hv; omega)
    rwa [chainPos_zero (bucket_lt hcap)] at this
  simp only [putFuel]
  rw [if_neg (not_le.mpr hused), if_pos hc0]
  exact put_data_chain (bucket_lt hcap) (Or.inl rfl) hv hm hempty

/-! ## Reading a stored chain back -/

theorem chainIdx?_lt {cap s m i j : Nat} (h : chainIdx? cap s m i = some j) : j < m := by
  induction m generalizing j with
  | zero => exact absurd h (by simp [chainIdx?])
  | succ k ih =>
    unfold chainIdx? at h
    cases hk : chainIdx? cap s k i with
    | some j' =>
      rw [hk] at h
      have hj : j' = j := by simpa using h
      exact hj ▸ Nat.lt_succ_of_lt (ih hk)
    | none =>
      rw [hk] at h
      by_cases hi : i = chainPos cap s k
      · rw [if_pos hi] at h
        have hj : k = j := by simpa using h
        omega
      · rw [if_neg hi] at h
        simp at h

/-- Walking the `link` chain from slot `j` reconstructs the value bytes
from offset `segOff j` on. -/
theorem getDataAux_chain {t : QArr} {start hash : Nat} {key v : List Nat}
    {cnt : Int} {m : Nat}
    (hv : 1 ≤ v.length) (hmeq : m = needSlots v.length) (hm : m ≤ t.maxslots)
    (k : Nat) :
    ∀ j fuel, j < m → m - j = k + 1 → k + 1 ≤ fuel →
    getDataAux (chainState t start hash key v cnt m) fuel (chainPos t.maxslots start j)
      = some (v.drop (segOff j)) := by
  induction k with
  | zero =>
    intro j fuel hj hk hfuel
    obtain ⟨f, rfl⟩ : ∃ f, fuel = f + 1 := ⟨fuel - 1, by omega⟩
    have hat : (chainState t start hash key v cnt m).slots (chainPos t.maxslots start j)
        = chainSlot t.maxslots start hash key v cnt m j := by
      rw [chainState, chainStateZ_slots_at hm hj, if_neg (by omega)]
    rw [getDataAux_last (by rw [hat]; exact chainSlot_link_last (by omega))]
    rw [hat]
    have hlast : v.length ≤ segOff j + segCap j := by
      rw [← segOff_succ]
      by_contra hcon
      push_neg at hcon
      have := (segOff_lt_iff hv).1 hcon
      omega
    have hsz : min (v.length - segOff j) (segCap j) = v.length - segOff j := by omega
    have hval : (chainSlot t.maxslots start hash key v cnt m j).value
        = (v.drop (segOff j)).take (min (v.length - segOff j) (segCap j)) := by
      cases j <;> rfl
    have hszf : (chainSlot t.maxslots start hash key v cnt m j).size
        = min (v.length - segOff j) (segCap j) := by
      cases j <;> rfl
    rw [hval, hszf, List.take_take, min_self, hsz,
      List.take_of_length_le (by simp [List.length_drop])]
  | succ k ih =>
    intro j fuel hj hk hfuel
    obtain ⟨f, rfl⟩ : ∃ f, fuel = f + 1 := ⟨fuel - 1, by omega⟩
    have hat : (chainState t start hash key v cnt m).slots (chainPos t.maxslots start j)
        = chainSlot t.maxslots start hash key v cnt m j := by
      rw [chainState, chainStateZ_slots_at hm hj, if_neg (by omega)]
    have hmid : (chainSlot t.maxslots start hash key v cnt m j).link
        = ((chainPos t.maxslots start (j + 1) : Nat) : Int) :=
      chainSlot_link_mid (by omega)
    rw [getDataAux_step (by rw [hat, hmid]; omega)]
    rw [hat, hmid, Int.toNat_ofNat]
    rw [ih (j + 1) f (by omega) (by omega) (by omega)]
    have hnotlast : segOff (j + 1) < v.length := by
      rw [segOff_lt_iff hv]
      omega
    have hsz : min (v.length - segOff j) (segCap j) = segCap j := by
      have := segOff_succ j
      omega
    have hval : (chainSlot t.maxslots start hash key v cnt m j).value
        = (v.drop (segOff j)).take (min (v.length - segOff j) (segCap j)) := by
      cases j <;> rfl
    have hszf : (chainSlot t.maxslots start hash key v cnt m j).size
        = min (v.length - segOff j) (segCap j) := by
      cases j <;> rfl
    rw [hval, hszf, List.take_take, min_self, hsz]
    have hdrop : v.drop (segOff (j + 1)) = (v.drop (segOff j)).drop (segCap j) := by
      rw [List.drop_drop]
      congr 1
      rw [segOff_succ]
    rw [hdrop]
    dsimp only
    rw [List.take_append_drop]

/-- `_get_data` on the head of a chain returns the full stored value. -/
theorem get_data_chain {t : QArr} {start hash : Nat} {key v : List Nat}
    {cnt : Int} {m : Nat}
    (hstart : start < t.maxslots) (hv : 1 ≤ v.length)
    (hmeq : m = needSlots v.length) (hm : m ≤ t.maxslots) :
    _get_data (chainState t start hash key v cnt m) start = some v := by
  have hm1 : 1 ≤ m := hmeq ▸ needSlots_pos hv
  have h := @getDataAux_chain t start hash key v cnt m hv hmeq hm (m - 1) 0
    (t.maxslots + 1) (by omega) (by omega) (by omega)
  rw [chainPos_zero hstart] at h
  unfold _get_data
  rw [show (chainState t start hash key v cnt m).maxslots = t.maxslots from rfl]
  rw [h]
  simp [show segOff 0 = 0 from rfl]

/-- `get` on a table holding one chain entry for `key` returns the full
stored value. -/
theorem get_chain {t : QArr} {start : Nat} {key v : List Nat} {m : Nat}
    (hstart : start < t.maxslots) (hv : 1 ≤ v.length)
    (hmeq : m = needSlots v.length) (hm : m ≤ t.maxslots)
    (hlen : key.length < 65536)
    (hmur : qhashmurmur3_32 key % t.maxslots = start) :
    get (chainState t start start key v 1 m) key = some v := by
  have hcap : 0 < t.maxslots := by omega
  have hat : (chainState t start start key v 1 m).slots start
      = chainSlot t.maxslots start start key v 1 m 0 := by
    have h0 := @chainStateZ_slots_at t start start key v 1 m 0 0 hm
      (by rw [hmeq]; exact needSlots_pos hv)
    rw [if_neg (by omega), chainPos_zero hstart] at h0
    rw [chainState, h0]
  have hc1 : ((chainState t start start key v 1 m).slots start).count = 1 := by
    rw [hat]; rfl
  have hhash : ((chainState t start start key v 1 m).slots start).hash = start := by
    rw [hat]; rfl
  have hidx : _get_idx (chainState t start start key v 1 m) key start = some start :=
    get_idx_first (by rw [show (chainState t start start key v 1 m).maxslots
      = t.maxslots from rfl]; omega) (by rw [hc1]; decide) hhash
      (by rw [hat]; exact keyMatches_self hlen)
  unfold get
  rw [show (chainState t start start key v 1 m).maxslots = t.maxslots from rfl, hmur]
  simp only [hidx]
  exact get_data_chain hstart hv hmeq hm

/-- `remove` on a table holding one chain entry for `key` frees the
whole chain and restores the counters. -/
theorem remove_chain {t : QArr} {start : Nat} {key v : List Nat} {m : Nat}
    (hstart : start < t.maxslots) (hv : 1 ≤ v.length)
    (hmeq : m = needSlots v.length) (hm : m ≤ t.maxslots)
    (hlen : key.length < 65536)
    (hmur : qhashmurmur3_32 key % t.maxslots = start) :
    remove_ (chainState t start start key v 1 m) key
      = (chainGone t start start key v 1 m, none) := by
  have hcap : 0 < t.maxslots := by omega
  have hat : (chainState t start start key v 1 m).slots start
      = chainSlot t.maxslots start start key v 1 m 0 := by
    have h0 := @chainStateZ_slots_at t start start key v 1 m 0 0 hm
      (by rw [hmeq]; exact needSlots_pos hv)
    rw [if_neg (by omega), chainPos_zero hstart] at h0
    rw [chainState, h0]
  have hc1 : ((chainState t start start key v 1 m).slots start).count = 1 := by
    rw [hat]; rfl
  have hhash : ((chainState t start start key v 1 m).slots start).hash = start := by
    rw [hat]; rfl
  have hidx : _get_idx (chainState t start start key v 1 m) key start = some start :=
    get_idx_first (by rw [show (chainState t start start key v 1 m).maxslots
      = t.maxslots from rfl]; omega) (by rw [hc1]; decide) hhash
      (by rw [hat]; exact keyMatches_self hlen)
  unfold remove_
  rw [show (chainState t start start key v 1 m).maxslots = t.maxslots from rfl, hmur]
  simp only [hidx]
  rw [if_pos hc1]
  rw [remove_data_chain hstart (by rw [hmeq]; exact needSlots_pos hv) hm (by decide)]

/-- Every slot of a fully removed chain state is marked empty when the
base table was all-empty. -/
theorem chainGone_countsZero {t : QArr} {start hash : Nat} {key v : List Nat}
    {cnt : Int} {m : Nat} (h : countsZero t) :
    countsZero (chainGone t start hash key v cnt m) := by
  intro i hi
  show ((chainStateZ t start hash key v cnt m m).slots i).count = 0
  unfold chainStateZ
  simp only []
  match hidx : chainIdx? t.maxslots start m i with
  | some j =>
    have hj : j < m := chainIdx?_lt hidx
    simp [hj]
  | none =>
    exact h i hi

@[simp] theorem maxslots_chainGone (t : QArr) (start hash : Nat) (key v : List Nat)
    (cnt : Int) (m : Nat) :
    (chainGone t start hash key v cnt m).maxslots = t.maxslots := rfl

@[simp] theorem usedslots_chainGone (t : QArr) (start hash : Nat) (key v : List Nat)
    (cnt : Int) (m : Nat) :
    (chainGone t start hash key v cnt m).usedslots = t.usedslots + m - m := rfl

@[simp] theorem num_chainGone (t : QArr) (start hash : Nat) (key v : List Nat)
    (cnt : Int) (m : Nat) :
    (chainGone t start hash key v cnt m).num = t.num := rfl

/-- The comparison `_get_idx` performs for a key longer than the key
capacity succeeds exactly when the stored 16-bit length, the 16 stored
(truncated) key bytes, and the full-key MD5 digest all agree. -/
theorem keyMatches_long_iff {key : List Nat} {s : Slot} (h : 16 < key.length) :
    keyMatches key s = true ↔
      key.length = s.keylen ∧ key.take 16 = s.key.take 16 ∧ qhashmd5 key = s.keymd5 := by
  unfold keyMatches _Q_HASHARR_KEYSIZE
  rcases eq_or_ne key.length s.keylen with hlen | hlen
  · rw [if_pos hlen, if_neg (by omega)]
    simp [hlen]
  · rw [if_neg hlen]
    simp [hlen]

/-! ## Further helper lemmas -/

theorem needSlots_one {n : Nat} (h1 : 1 ≤ n) (h32 : n ≤ 32) : needSlots n = 1 := by
  unfold needSlots _Q_HASHARR_VALUESIZE SLOT_EXT_SIZE
  rw [if_neg (by omega)]
  omega

/-- The full-table check of `put` with any remaining fuel. -/
theorem putFuel_full {t : QArr} {key v : List Nat} {fuel : Nat}
    (h : (t.maxslots : Int) ≤ t.usedslots) :
    putFuel key v (fuel + 1) t = (t, some Errno.ENOBUFS) := by
  simp only [putFuel]
  rw [if_pos h]

@[simp] theorem maxslots_chainState (t : QArr) (start hash : Nat) (key v : List Nat)
    (cnt : Int) (m : Nat) :
    (chainState t start hash key v cnt m).maxslots = t.maxslots := rfl

@[simp] theorem num_chainState (t : QArr) (start hash : Nat) (key v : List Nat)
    (cnt : Int) (m : Nat) :
    (chainState t start hash key v cnt m).num = t.num + 1 := rfl

/-- The second `put` of an already-stored key takes the
remove-then-recurse path: one step of `put`'s self-recursion turns the
stored chain into the fully removed chain. -/
theorem put_second_removes {t : QArr} {key v1 v2 : List Nat} {s : Nat} {fuel : Nat}
    (hu : t.usedslots = 0) (hklen : key.length < 65536)
    (hv1 : 1 ≤ v1.length) (hm1 : needSlots v1.length < t.maxslots)
    (hmur : qhashmurmur3_32 key % t.maxslots = s) :
    putFuel key v2 (fuel + 1) (chainState t s s key v1 1 (needSlots v1.length))
      = putFuel key v2 fuel (chainGone t s s key v1 1 (needSlots v1.length)) := by
  have hcap : 0 < t.maxslots := lt_of_le_of_lt (Nat.zero_le _) hm1
  have hstart : s < t.maxslots := by rw [← hmur]; exact bucket_lt hcap
  have hat : (chainState t s s key v1 1 (needSlots v1.length)).slots s
      = chainSlot t.maxslots s s key v1 1 (needSlots v1.length) 0 := by
    have h0 := @chainStateZ_slots_at t s s key v1 1 (needSlots v1.length) 0 0
      (le_of_lt hm1) (needSlots_pos hv1)
    rw [if_neg (by omega), chainPos_zero hstart] at h0
    rw [chainState, h0]
  have hc1 : ((chainState t s s key v1 1 (needSlots v1.length)).slots s).count = 1 := by
    rw [hat]; rfl
  have hhash : ((chainState t s s key v1 1 (needSlots v1.length)).slots s).hash = s := by
    rw [hat]; rfl
  have hidx : _get_idx (chainState t s s key v1 1 (needSlots v1.length)) key s = some s :=
    get_idx_first (by exact hcap) (by rw [hc1]; decide) hhash
      (by rw [hat]; exact keyMatches_self hklen)
  have hcond : ¬ ((chainState t s s key v1 1 (needSlots v1.length)).usedslots
      ≥ (((chainState t s s key v1 1 (needSlots v1.length)).maxslots : Nat) : Int)) := by
    show ¬ (t.usedslots + ((needSlots v1.length : Nat) : Int) - ((0 : Nat) : Int)
      ≥ ((t.maxslots : Nat) : Int))
    rw [hu]
    omega
  simp only [putFuel]
  rw [if_neg hcond]
  simp only [maxslots_chainState]
  rw [hmur]
  rw [if_neg (by rw [hc1]; decide), if_pos (by rw [hc1]; decide)]
  simp only [hidx]
  rw [remove_chain hstart hv1 rfl (le_of_lt hm1) hklen hmur]

/-- Every index of the table is covered by a chain of `maxslots` slots. -/
theorem chainIdx?_cover {cap s i : Nat} (hs : s < cap) (hi : i < cap) :
    ∃ j, j < cap ∧ chainIdx? cap s cap i = some j := by
  rcases le_or_lt s i with hsi | hsi
  · refine ⟨i - s, by omega, ?_⟩
    have hp : chainPos cap s (i - s) = i := by
      unfold chainPos
      rw [show s + (i - s) = i by omega, Nat.mod_eq_of_lt hi]
    have hsome := @chainIdx?_some cap s cap (i - s) (le_refl _) (by omega)
    rw [hp] at hsome
    exact hsome
  · refine ⟨cap + i - s, by omega, ?_⟩
    have hp : chainPos cap s (cap + i - s) = i := by
      unfold chainPos
      rw [show s + (cap + i - s) = cap + i by omega, Nat.add_mod_left,
        Nat.mod_eq_of_lt hi]
    have hsome := @chainIdx?_some cap s cap (cap + i - s) (le_refl _) (by omega)
    rw [hp] at hsome
    exact hsome

/-- A chain spanning the whole table leaves no empty slot. -/
theorem chainState_full_nonempty {t : QArr} {start hash : Nat} {key v : List Nat}
    {cnt : Int} (hstart : start < t.maxslots) (hcnt : cnt ≠ 0) :
    ∀ i, i < t.maxslots →
      ((chainState t start hash key v cnt t.maxslots).slots i).count ≠ 0 := by
  intro i hi
  obtain ⟨j, hj, hidx⟩ := chainIdx?_cover hstart hi
  show ((chainStateZ t start hash key v cnt t.maxslots 0).slots i).count ≠ 0
  unfold chainStateZ
  simp only []
  rw [hidx]
  simp only [Nat.not_lt_zero, if_false]
  exact chainSlot_count_ne hcnt

/-- Value-storing loop of `_put_data` when the value needs more slots
than the table has: the loop fills every slot, the next allocation
fails, and the partial chain is rolled back with `ENOBUFS`. -/
theorem putDataLoop_fail_from {t : QArr} {start hash : Nat} {key v : List Nat}
    {cnt : Int}
    (hstart : start < t.maxslots) (hcnt : cnt ≠ 0) (hv : 1 ≤ v.length)
    (hover : t.maxslots < needSlots v.length)
    (hempty : ∀ a, a < t.maxslots →
      (t.slots (chainPos t.maxslots start a)).count = 0)
    (k : Nat) :
    ∀ j fuel, 1 ≤ j → j ≤ t.maxslots → t.maxslots - j = k → k + 1 ≤ fuel →
    putDataLoop start v v.length fuel (chainState t start hash key v cnt j)
        (chainPos t.maxslots start (j - 1)) (min v.length (segOff j))
      = (chainGone t start hash key v cnt t.maxslots, some Errno.ENOBUFS) := by
  induction k with
  | zero =>
    intro j fuel hj hjm hk hfuel
    obtain ⟨f, rfl⟩ : ∃ f, fuel = f + 1 := ⟨fuel - 1, by omega⟩
    have hjcap : j = t.maxslots := by omega
    subst hjcap
    have hsav : segOff t.maxslots < v.length := (segOff_lt_iff hv).2 (by omega)
    have hminsav : min v.length (segOff t.maxslots) = segOff t.maxslots := by omega
    have hfe : _find_empty (chainState t start hash key v cnt t.maxslots)
        (chainPos t.maxslots start (t.maxslots - 1) + 1) = none :=
      find_empty_none (by show 0 < t.maxslots; omega)
        (chainState_full_nonempty hstart hcnt)
    have hpos : 0 < segOff t.maxslots := by
      have := @segOff_ge_32 t.maxslots (by omega)
      omega
    rw [hminsav]
    simp only [putDataLoop]
    rw [if_pos hsav, if_pos hpos, hfe]
    rw [if_neg Bool.false_ne_true]
    rw [remove_data_chain hstart (by omega) (le_refl _) hcnt]
  | succ k ih =>
    intro j fuel hj hjm hk hfuel
    have hjlt : j < t.maxslots := by omega
    have hsav : segOff j < v.length := (segOff_lt_iff hv).2 (by
      have := needSlots_le hv
      omega)
    have hminsav : min v.length (segOff j) = segOff j := by omega
    obtain ⟨f, rfl⟩ : ∃ f, fuel = f + 1 := ⟨fuel - 1, by omega⟩
    rw [hminsav]
    rw [putDataLoop_iter f hstart hj hjlt hsav (hempty j hjlt)]
    have h2 := ih (j + 1) f (by omega) (by omega) (by omega) (by omega)
    rw [show j + 1 - 1 = j from rfl] at h2
    exact h2

/-- `_put_data` when the value needs more slots than the table has:
the write fails with `ENOBUFS` and the table is left in the fully
rolled-back state. -/
theorem put_data_fail {t : QArr} {start hash : Nat} {key v : List Nat} {cnt : Int}
    (hstart : start < t.maxslots) (hcnt : cnt = 1 ∨ cnt = -1)
    (hv : 1 ≤ v.length) (hover : t.maxslots < needSlots v.length)
    (hempty : ∀ a, a < t.maxslots →
      (t.slots (chainPos t.maxslots start a)).count = 0) :
    _put_data t start hash key v v.length cnt
      = (chainGone t start hash key v cnt t.maxslots, some Errno.ENOBUFS) := by
  have hcap : 0 < t.maxslots := by omega
  have hc0 : (t.slots start).count = 0 := by
    have := hempty 0 hcap
    rwa [chainPos_zero hstart] at this
  unfold _put_data
  rw [if_neg (by rw [hc0]; exact fun h => h rfl)]
  have hfst : ((updSlot t start (fun s =>
      { s with count := cnt, hash := hash, key := strncpy16 key,
               keymd5 := qhashmd5 key, keylen := key.length % 65536,
               link := -1 })).slots start).count = cnt := by
    rw [slots_updSlot_self]
  have hcne : cnt ≠ -2 := by
    rcases hcnt with h | h <;> subst h <;> decide
  simp only [putDataLoop]
  rw [if_pos (by omega : (0 : Nat) < v.length), if_neg (lt_irrefl 0)]
  simp only [hfst, if_neg hcne]
  have hstate : ({ { updSlot (updSlot t start (fun s =>
      { s with count := cnt, hash := hash, key := strncpy16 key,
               keymd5 := qhashmd5 key, keylen := key.length % 65536,
               link := -1 })) start (fun s =>
      { s with value := (v.drop 0).take (min (v.length - 0) _Q_HASHARR_VALUESIZE),
               size := min (v.length - 0) _Q_HASHARR_VALUESIZE })
      with num := t.num + 1 } with usedslots := t.usedslots + 1 } : QArr)
      = chainState t start hash key v cnt 1 := by
    apply QArr.ext
    · rfl
    · show t.usedslots + 1 = t.usedslots + (1 : Nat) - (0 : Nat)
      push_cast
      ring
    · rfl
    · funext x
      dsimp only
      by_cases hx : x = start
      · subst hx
        rw [slots_updSlot_self, slots_updSlot_self]
        have h0 := @chainStateZ_slots_at t x hash key v cnt 1 0 0 (by omega) (by omega)
        rw [if_neg (by omega), chainPos_zero hstart] at h0
        rw [chainState, h0]
        simp only [chainSlot, segOff, segCap, Nat.sub_zero, List.drop_zero, if_true]
      · rw [slots_updSlot_ne _ _ _ hx, slots_updSlot_ne _ _ _ hx]
        rw [chainState, chainStateZ_slots_other (fun a ha hxa => by
          have ha0 : a = 0 := by omega
          subst ha0
          rw [chainPos_zero hstart] at hxa
          exact hx hxa)]
  have hsave : 0 + min (v.length - 0) _Q_HASHARR_VALUESIZE
      = min v.length (segOff 1) := by
    simp only [segOff, _Q_HASHARR_VALUESIZE]
    omega
  rw [hsave]
  have hcnt0 : cnt ≠ 0 := by
    rcases hcnt with h | h <;> subst h <;> decide
  have hloop := @putDataLoop_fail_from t start hash key v cnt hstart hcnt0 hv hover
    hempty (t.maxslots - 1) 1 v.length (by omega) (by omega) (by omega) (by
      have h1 := needSlots_le hv
      omega)
  rw [show (1 : Nat) - 1 = 0 from rfl, chainPos_zero hstart] at hloop
  rw [← hstate] at hloop
  exact hloop

/-- Case A of `put` with an oversized value: the write fails with
`ENOBUFS` after rolling back the partial chain. -/
theorem put_empty_bucket_fail {t : QArr} {key v : List Nat} (fuel : Nat)
    (hused : t.usedslots < (t.maxslots : Int))
    (hv : 1 ≤ v.length) (hover : t.maxslots < needSlots v.length)
    (hcap : 0 < t.maxslots)
    (hempty : ∀ a, a < t.maxslots →
      (t.slots (chainPos t.maxslots (qhashmurmur3_32 key % t.maxslots) a)).count = 0) :
    putFuel key v (fuel + 1) t
      = (chainGone t (qhashmurmur3_32 key % t.maxslots)
          (qhashmurmur3_32 key % t.maxslots) key v 1 t.maxslots,
         some Errno.ENOBUFS) := by
  have hc0 : (t.slots (qhashmurmur3_32 key % t.maxslots)).count = 0 := by
    have := hempty 0 hcap
    rwa [chainPos_zero (bucket_lt hcap)] at this
  simp only [putFuel]
  rw [if_neg (not_le.mpr hused), if_pos hc0]
  exact put_data_fail (bucket_lt hcap) (Or.inl rfl) hv hover hempty

theorem chainSlot_zero_count (cap start hash : Nat) (key v : List Nat) (cnt : Int)
    (m : Nat) : (chainSlot cap start hash key v cnt m 0).count = cnt := rfl

theorem getIdxAux_nomatch_wrap {t : QArr} {key : List Nat} {hash fuel idx : Nat}
    {cnt : Int}
    (hcnt : cnt < (t.slots hash).count)
    (hhit : (t.slots idx).hash = hash ∧
      (0 < (t.slots idx).count ∨ (t.slots idx).count = -1))
    (hmatch : keyMatches key (t.slots idx) = false)
    (heq : (if idx + 1 ≥ t.maxslots then 0 else idx + 1) = hash) :
    getIdxAux t key hash (fuel + 1) idx cnt = none := by
  simp [getIdxAux, hcnt, hhit, hmatch, heq]

theorem chainState_one_slots_self {t : QArr} {s hash : Nat} {k v : List Nat}
    {cnt : Int} (hs : s < t.maxslots) :
    (chainState t s hash k v cnt 1).slots s = chainSlot t.maxslots s hash k v cnt 1 0 := by
  have h0 := @chainStateZ_slots_at t s hash k v cnt 1 0 0 (by omega) (by omega)
  rw [if_neg (by omega), chainPos_zero hs] at h0
  rw [chainState, h0]

theorem chainState_one_slots_other {t : QArr} {s hash : Nat} {k v : List Nat}
    {cnt : Int} {i : Nat} (hs : s < t.maxslots) (hi : i ≠ s) :
    (chainState t s hash k v cnt 1).slots i = t.slots i := by
  rw [chainState, chainStateZ_slots_other (fun a ha hxa => by
    have ha0 : a = 0 := by omega
    subst ha0
    rw [chainPos_zero hs] at hxa
    exact hi hxa)]

/-- A single-entry table finds no index for a key that does not pass the
stored-slot comparison: the bucket scan either misses (other bucket,
empty slot) or compares once, fails, and exhausts the collision count. -/
theorem get_idx_one_nomatch {t : QArr} {k1 k2 v : List Nat} {s h2 : Nat}
    (hz : countsZero t) (hs : s < t.maxslots) (h2lt : h2 < t.maxslots)
    (hnm : keyMatches k2 (chainSlot t.maxslots s s k1 v 1 1 0) = false) :
    _get_idx (chainState t s s k1 v 1 1) k2 h2 = none := by
  have hat : (chainState t s s k1 v 1 1).slots s = chainSlot t.maxslots s s k1 v 1 1 0 :=
    chainState_one_slots_self hs
  by_cases hcase : h2 = s
  · subst hcase
    have hpos : 0 < ((chainState t h2 h2 k1 v 1 1).slots h2).count := by
      rw [hat, chainSlot_zero_count]; decide
    rw [get_idx_unfold hpos]
    simp only [maxslots_chainState]
    obtain ⟨f, hf⟩ : ∃ f, t.maxslots = f + 1 := ⟨t.maxslots - 1, by omega⟩
    rw [hf]
    have hhit : ((chainState t h2 h2 k1 v 1 1).slots h2).hash = h2 ∧
        (0 < ((chainState t h2 h2 k1 v 1 1).slots h2).count ∨
          ((chainState t h2 h2 k1 v 1 1).slots h2).count = -1) := by
      rw [hat]
      exact ⟨rfl, Or.inl (by rw [chainSlot_zero_count]; decide)⟩
    have hmatch : keyMatches k2 ((chainState t h2 h2 k1 v 1 1).slots h2) = false := by
      rw [hat]; exact hnm
    by_cases hw : (if h2 + 1 ≥ (chainState t h2 h2 k1 v 1 1).maxslots then 0
        else h2 + 1) = h2
    · exact getIdxAux_nomatch_wrap hpos hhit hmatch hw
    · rw [getIdxAux_nomatch hpos hhit hmatch hw]
      have hcap2 : 2 ≤ t.maxslots := by
        by_contra hc
        have h1 : t.maxslots = 1 := by omega
        apply hw
        show (if h2 + 1 ≥ t.maxslots then 0 else h2 + 1) = h2
        rw [if_pos (by omega)]
        omega
      obtain ⟨g, hg⟩ : ∃ g, f = g + 1 := ⟨f - 1, by omega⟩
      rw [hg]
      exact getIdxAux_stop (by rw [hat, chainSlot_zero_count]; decide)
  · have hc0 : ((chainState t s s k1 v 1 1).slots h2).count = 0 := by
      rw [chainState_one_slots_other hs hcase]
      exact hz h2 h2lt
    exact get_idx_neg (by rw [hc0]; decide)

theorem chainIdx?_eq_pos {cap s m i j : Nat} (h : chainIdx? cap s m i = some j) :
    i = chainPos cap s j := by
  induction m generalizing j with
  | zero => exact absurd h (by simp [chainIdx?])
  | succ k ih =>
    unfold chainIdx? at h
    cases hk : chainIdx? cap s k i with
    | some j' =>
      rw [hk] at h
      have hj : j' = j := by simpa using h
      exact hj ▸ ih hk
    | none =>
      rw [hk] at h
      by_cases hi : i = chainPos cap s k
      · rw [if_pos hi] at h
        have hj : k = j := by simpa using h
        exact hj ▸ hi
      · rw [if_neg hi] at h
        simp at h

/-- Away from the chain's first slot, a written chain leaves only empty
slots (`count = 0`, from the base table) and extension slots
(`count = -2`). -/
theorem chainState_count_notself {t : QArr} {start hash : Nat} {key v : List Nat}
    {cnt : Int} {m : Nat} (hstart : start < t.maxslots)
    (hz : countsZero t) {i : Nat} (hi : i < t.maxslots) (hne : i ≠ start) :
    ((chainState t start hash key v cnt m).slots i).count = 0 ∨
    ((chainState t start hash key v cnt m).slots i).count = -2 := by
  show ((chainStateZ t start hash key v cnt m 0).slots i).count = 0 ∨
    ((chainStateZ t start hash key v cnt m 0).slots i).count = -2
  unfold chainStateZ
  simp only []
  match hidx : chainIdx? t.maxslots start m i with
  | some j =>
    simp only [Nat.not_lt_zero, if_false]
    have hieq := chainIdx?_eq_pos hidx
    have hj0 : j ≠ 0 := fun h0 => hne (by rw [hieq, h0, chainPos_zero hstart])
    obtain ⟨j', rfl⟩ : ∃ j', j = j' + 1 := ⟨j - 1, by omega⟩
    exact Or.inr rfl
  | none =>
    exact Or.inl (hz i hi)

/-- `getnext` reports exhaustion when every remaining slot is empty or
an extension slot. -/
theorem getnextAux_none_of_skippable {t : QArr} :
    ∀ fuel idx, (∀ i, idx ≤ i → i < t.maxslots →
      (t.slots i).count = 0 ∨ (t.slots i).count = -2) →
    getnextAux t fuel idx = none := by
  intro fuel
  induction fuel with
  | zero => intro idx _; rfl
  | succ f ih =>
    intro idx h
    by_cases hlt : idx < t.maxslots
    · rw [getnextAux_skip hlt (h idx (le_refl _) hlt)]
      exact ih (idx + 1) (fun i hi1 hi2 => h i (by omega) hi2)
    · exact getnextAux_stop hlt

/-- `getnext` skips empty and extension slots up to the first live entry
and yields its (possibly truncated) name with the reconstructed data. -/
theorem getnextAux_first_hit {t : QArr} {s : Nat} {data : List Nat}
    (hs : s < t.maxslots)
    (hskip : ∀ i, i < s → (t.slots i).count = 0 ∨ (t.slots i).count = -2)
    (hc : ¬ ((t.slots s).count = 0 ∨ (t.slots s).count = -2))
    (hdata : _get_data t s = some data) :
    ∀ fuel idx, idx ≤ s → s - idx < fuel →
    getnextAux t fuel idx
      = some ((t.slots s).key.take (min (t.slots s).keylen _Q_HASHARR_KEYSIZE),
          data, s + 1) := by
  intro fuel
  induction fuel with
  | zero => intro idx _ h; omega
  | succ f ih =>
    intro idx hle hfuel
    by_cases he : idx = s
    · subst he
      rw [getnextAux_yield hs hc, hdata]
    · rw [getnextAux_skip (by omega) (hskip idx (by omega))]
      exact ih (idx + 1) (by omega) (by omega)

theorem iterAllAux_nil {t : QArr} (idx : Nat) (h : getnext t idx = none) :
    ∀ fuel, iterAllAux t fuel idx = [] := by
  intro fuel
  cases fuel with
  | zero => rfl
  | succ f => simp [iterAllAux, h]

theorem iterAllAux_cons {t : QArr} {fuel idx idx1 : Nat} {name data : List Nat}
    (h : getnext t idx = some (name, data, idx1)) :
    iterAllAux t (fuel + 1) idx = (name, data) :: iterAllAux t fuel idx1 := by
  simp [iterAllAux, h]

/-! ## Two colliding single-slot entries -/

theorem succ_mod_ne {cap s : Nat} (hcap : 2 ≤ cap) (hs : s < cap) :
    (s + 1) % cap ≠ s := by
  rcases Nat.lt_or_ge (s + 1) cap with h | h
  · rw [Nat.mod_eq_of_lt h]
    omega
  · have he : s + 1 = cap := by omega
    rw [he, Nat.mod_self]
    omega

theorem keyMatches_set_count (k : List Nat) (sl : Slot) (c : Int) :
    keyMatches k { sl with count := c } = keyMatches k sl := rfl

/-- The table holding two colliding single-slot entries: `k1`'s leading
slot at its bucket `s` with collision count 2, and `k2`'s displaced
entry (`count = -1`, back-pointer `hash = s`) at the next probe
position. -/
def collisionState (t : QArr) (s : Nat) (k1 v1 k2 v2 : List Nat) : QArr :=
  { maxslots := t.maxslots,
    usedslots := t.usedslots + 2,
    num := t.num + 2,
    slots := fun i =>
      if i = s then { chainSlot t.maxslots s s k1 v1 1 1 0 with count := 2 }
      else if i = (s + 1) % t.maxslots then
        chainSlot t.maxslots ((s + 1) % t.maxslots) s k2 v2 (-1) 1 0
      else t.slots i }

/-- `collisionState` after `k2` (the displaced entry) was removed. -/
def collisionSndGone (t : QArr) (s : Nat) (k1 v1 k2 v2 : List Nat) : QArr :=
  { maxslots := t.maxslots,
    usedslots := t.usedslots + 1,
    num := t.num + 1,
    slots := fun i =>
      if i = s then { chainSlot t.maxslots s s k1 v1 1 1 0 with count := 1 }
      else if i = (s + 1) % t.maxslots then
        { chainSlot t.maxslots ((s + 1) % t.maxslots) s k2 v2 (-1) 1 0
          with count := 0 }
      else t.slots i }

/-- `collisionState` after `k1` (the leading entry) was removed: the
displaced `k2` slot is relocated into the leading position with its
collision count set to the original count minus one. -/
def collisionFstGone (t : QArr) (s : Nat) (_k1 _v1 k2 v2 : List Nat) : QArr :=
  { maxslots := t.maxslots,
    usedslots := t.usedslots + 1,
    num := t.num + 1,
    slots := fun i =>
      if i = s then
        { chainSlot t.maxslots ((s + 1) % t.maxslots) s k2 v2 (-1) 1 0
          with count := 1 }
      else if i = (s + 1) % t.maxslots then
        { chainSlot t.maxslots ((s + 1) % t.maxslots) s k2 v2 (-1) 1 0
          with count := 0 }
      else t.slots i }

@[simp] theorem maxslots_collisionState (t : QArr) (s : Nat) (k1 v1 k2 v2 : List Nat) :
    (collisionState t s k1 v1 k2 v2).maxslots = t.maxslots := rfl

@[simp] theorem maxslots_collisionSndGone (t : QArr) (s : Nat) (k1 v1 k2 v2 : List Nat) :
    (collisionSndGone t s k1 v1 k2 v2).maxslots = t.maxslots := rfl

@[simp] theorem maxslots_collisionFstGone (t : QArr) (s : Nat) (k1 v1 k2 v2 : List Nat) :
    (collisionFstGone t s k1 v1 k2 v2).maxslots = t.maxslots := rfl

theorem collisionState_slots_self (t : QArr) (s : Nat) (k1 v1 k2 v2 : List Nat) :
    (collisionState t s k1 v1 k2 v2).slots s
      = { chainSlot t.maxslots s s k1 v1 1 1 0 with count := 2 } := by
  simp [collisionState]

theorem collisionState_slots_snd {t : QArr} {s : Nat} (k1 v1 k2 v2 : List Nat)
    (hne : (s + 1) % t.maxslots ≠ s) :
    (collisionState t s k1 v1 k2 v2).slots ((s + 1) % t.maxslots)
      = chainSlot t.maxslots ((s + 1) % t.maxslots) s k2 v2 (-1) 1 0 := by
  simp [collisionState, hne]

theorem collisionState_slots_other {t : QArr} {s i : Nat} (k1 v1 k2 v2 : List Nat)
    (h1 : i ≠ s) (h2 : i ≠ (s + 1) % t.maxslots) :
    (collisionState t s k1 v1 k2 v2).slots i = t.slots i := by
  simp [collisionState, h1, h2]

theorem collisionSndGone_slots_self (t : QArr) (s : Nat) (k1 v1 k2 v2 : List Nat) :
    (collisionSndGone t s k1 v1 k2 v2).slots s
      = { chainSlot t.maxslots s s k1 v1 1 1 0 with count := 1 } := by
  simp [collisionSndGone]

theorem collisionFstGone_slots_self (t : QArr) (s : Nat) (k1 v1 k2 v2 : List Nat) :
    (collisionFstGone t s k1 v1 k2 v2).slots s
      = { chainSlot t.maxslots ((s + 1) % t.maxslots) s k2 v2 (-1) 1 0
          with count := 1 } := by
  simp [collisionFstGone]

/-- `_find_empty` from an occupied slot whose successor (wrapping) is
empty lands on the successor. -/
theorem find_empty_second {t : QArr} {s : Nat} (hcap : 2 ≤ t.maxslots)
    (hs : s < t.maxslots)
    (h1 : (t.slots s).count ≠ 0)
    (h2 : (t.slots ((s + 1) % t.maxslots)).count = 0) :
    _find_empty t s = some ((s + 1) % t.maxslots) := by
  have hne := succ_mod_ne hcap hs
  unfold _find_empty
  dsimp only
  have hcond : ¬ (s ≥ t.maxslots) := by omega
  rw [if_neg hcond]
  obtain ⟨f, hf⟩ : ∃ f, t.maxslots = f + 2 := ⟨t.maxslots - 2, by omega⟩
  conv_lhs => rw [hf]
  have hstep2 : (if s + 1 ≥ t.maxslots then 0 else s + 1) ≠ s := by
    rw [wrapIdx hs]
    exact hne
  rw [findEmptyAux_step h1 hstep2]
  rw [wrapIdx hs]
  exact findEmptyAux_hit h2

/-- The collision-member scan of `remove_` when the probe start has
already wrapped past the table end: the slot at index 0 is examined. -/
theorem findDupAux_hit_wrap {t : QArr} {hash stop fuel idx2 : Nat}
    (hge : idx2 ≥ t.maxslots) (hne : (0 : Nat) ≠ stop)
    (hc : (t.slots 0).count = -1 ∧ (t.slots 0).hash = hash) :
    findDupAux t hash stop (fuel + 1) idx2 = some 0 := by
  simp [findDupAux, hge, hne, hc]

/-- `_get_data` of a chain-less slot returns its inline payload. -/
theorem get_data_single {t : QArr} {idx : Nat} (hlink : (t.slots idx).link = -1) :
    _get_data t idx = some ((t.slots idx).value.take (t.slots idx).size) := by
  unfold _get_data
  exact getDataAux_last hlink

/-- The inline payload of a single-slot chain is the whole value. -/
theorem chainSlot_single_take {cap start hash : Nat} {k v : List Nat} {cnt : Int}
    (hv32 : v.length ≤ 32) :
    (chainSlot cap start hash k v cnt 1 0).value.take
      (chainSlot cap start hash k v cnt 1 0).size = v := by
  show ((v.drop (segOff 0)).take (min (v.length - segOff 0) (segCap 0))).take
    (min (v.length - segOff 0) (segCap 0)) = v
  rw [List.take_take, min_self]
  show (v.drop 0).take (min (v.length - 0) 32) = v
  rw [List.drop_zero, Nat.sub_zero, min_eq_left hv32]
  exact List.take_of_length_le (le_refl _)

theorem remove_slot_eq {t : QArr} {idx : Nat} (h : (t.slots idx).count ≠ 0) :
    _remove_slot t idx = ({ updSlot t idx (fun sl => { sl with count := 0 })
      with usedslots := t.usedslots - 1 }, true) := by
  unfold _remove_slot
  rw [if_neg h]
  exact rfl

theorem copy_slot_eq {t : QArr} {i1 i2 : Nat} (h1 : (t.slots i1).count = 0)
    (h2 : (t.slots i2).count ≠ 0) :
    _copy_slot t i1 i2 = ({ setSlot t i1 (t.slots i2)
      with usedslots := t.usedslots + 1 }, true) := by
  unfold _copy_slot
  rw [if_neg (by rw [h1]; simp [h2])]
  exact rfl

theorem remove_data_single_eq {t : QArr} {idx : Nat}
    (hc : (t.slots idx).count ≠ 0) (hl : (t.slots idx).link = -1) :
    _remove_data t idx
      = ({ updSlot t idx (fun sl => { sl with count := 0 })
          with usedslots := t.usedslots - 1, num := t.num - 1 }, true) := by
  unfold _remove_data
  rw [if_neg hc]
  dsimp only
  rw [removeDataLoop_last hl]
  rw [remove_slot_eq hc]
  exact rfl

/-- `_get_idx` on the two-entry collision table finds the displaced
second key: the leading slot is compared first and fails, the scan
advances one position (wrapping) and the displaced slot matches. -/
theorem get_idx_collision_snd {t : QArr} {s : Nat} {k1 v1 k2 v2 : List Nat}
    (hcap : 2 ≤ t.maxslots) (hs : s < t.maxslots)
    (hk2 : k2.length < 65536)
    (hnm : keyMatches k2 (chainSlot t.maxslots s s k1 v1 1 1 0) = false) :
    _get_idx (collisionState t s k1 v1 k2 v2) k2 s
      = some ((s + 1) % t.maxslots) := by
  have hne := succ_mod_ne hcap hs
  have hself := collisionState_slots_self t s k1 v1 k2 v2
  have hsnd := collisionState_slots_snd k1 v1 k2 v2 hne
  have hpos : 0 < ((collisionState t s k1 v1 k2 v2).slots s).count := by
    rw [hself]
    show (0 : Int) < 2
    decide
  rw [get_idx_unfold hpos]
  simp only [maxslots_collisionState]
  obtain ⟨f, hf⟩ : ∃ f, t.maxslots = f + 2 := ⟨t.maxslots - 2, by omega⟩
  conv_lhs => rw [hf]
  have hhit1 : ((collisionState t s k1 v1 k2 v2).slots s).hash = s ∧
      (0 < ((collisionState t s k1 v1 k2 v2).slots s).count ∨
       ((collisionState t s k1 v1 k2 v2).slots s).count = -1) := by
    rw [hself]
    exact ⟨rfl, Or.inl (by show (0 : Int) < 2; decide)⟩
  have hm1 : keyMatches k2 ((collisionState t s k1 v1 k2 v2).slots s) = false := by
    rw [hself, keyMatches_set_count]
    exact hnm
  have hidx1ne : (if s + 1 ≥ t.maxslots then 0 else s + 1) ≠ s := by
    rw [wrapIdx hs]
    exact hne
  rw [getIdxAux_nomatch hpos hhit1 hm1 hidx1ne]
  simp only [maxslots_collisionState]
  rw [wrapIdx hs]
  have hcnt2 : (0 : Int) + 1 < ((collisionState t s k1 v1 k2 v2).slots s).count := by
    rw [hself]
    show (0 : Int) + 1 < 2
    decide
  have hhit2 : ((collisionState t s k1 v1 k2 v2).slots ((s + 1) % t.maxslots)).hash
        = s ∧
      (0 < ((collisionState t s k1 v1 k2 v2).slots ((s + 1) % t.maxslots)).count ∨
       ((collisionState t s k1 v1 k2 v2).slots ((s + 1) % t.maxslots)).count = -1) := by
    rw [hsnd]
    exact ⟨rfl, Or.inr rfl⟩
  have hm2 : keyMatches k2
      ((collisionState t s k1 v1 k2 v2).slots ((s + 1) % t.maxslots)) = true := by
    rw [hsnd]
    exact keyMatches_self hk2
  exact getIdxAux_found hcnt2 hhit2 hm2

/-- The state `put`'s collision branch assembles equals the closed-form
two-entry collision table. -/
theorem collision_assemble {t : QArr} {s : Nat} {k1 v1 k2 v2 : List Nat}
    (hcap : 2 ≤ t.maxslots) (hs : s < t.maxslots) :
    updSlot (chainState (chainState t s s k1 v1 1 1) ((s + 1) % t.maxslots) s
        k2 v2 (-1) 1) s (fun sl => { sl with count := sl.count + 1 })
      = collisionState t s k1 v1 k2 v2 := by
  have hne := succ_mod_ne hcap hs
  have hplt : (s + 1) % t.maxslots < t.maxslots := Nat.mod_lt _ (by omega)
  apply QArr.ext
  · rfl
  · show t.usedslots + ((1 : Nat) : Int) - ((0 : Nat) : Int)
      + ((1 : Nat) : Int) - ((0 : Nat) : Int) = t.usedslots + 2
    omega
  · show t.num + 1 + 1 = t.num + 2
    omega
  · funext i
    by_cases hi1 : i = s
    · subst hi1
      rw [slots_updSlot_self]
      rw [@chainState_one_slots_other (chainState t i i k1 v1 1 1)
        ((i + 1) % t.maxslots) i k2 v2 (-1) i (by exact hplt) (Ne.symm hne)]
      rw [chainState_one_slots_self hs]
      rw [collisionState_slots_self]
      rfl
    · by_cases hi2 : i = (s + 1) % t.maxslots
      · subst hi2
        rw [slots_updSlot_ne _ _ _ hne]
        rw [@chainState_one_slots_self (chainState t s s k1 v1 1 1)
          ((s + 1) % t.maxslots) s k2 v2 (-1) (by exact hplt)]
        rw [collisionState_slots_snd _ _ _ _ hne]
        rfl
      · rw [slots_updSlot_ne _ _ _ hi1]
        rw [@chainState_one_slots_other (chainState t s s k1 v1 1 1)
          ((s + 1) % t.maxslots) s k2 v2 (-1) i (by exact hplt) hi2]
        rw [chainState_one_slots_other hs hi1]
        rw [collisionState_slots_other _ _ _ _ hi1 hi2]

/-- One step of `put` on a table holding `k1` when the colliding `k2`
arrives: the lookup misses, an empty slot is found one position on, the
displaced entry is written with `count = -1`, and the leading slot's
collision count is incremented. -/
theorem putFuel_collision_step {t : QArr} {k1 v1 k2 v2 : List Nat} {s : Nat}
    {fuel : Nat}
    (hz : countsZero t) (hu : t.usedslots = 0) (hcap : 2 ≤ t.maxslots)
    (_hk2 : k2.length < 65536)
    (hv2 : 1 ≤ v2.length) (hv2c : v2.length ≤ 32)
    (hmur2 : qhashmurmur3_32 k2 % t.maxslots = s)
    (hnm : keyMatches k2 (chainSlot t.maxslots s s k1 v1 1 1 0) = false) :
    putFuel k2 v2 (fuel + 1) (chainState t s s k1 v1 1 1)
      = (collisionState t s k1 v1 k2 v2, none) := by
  have hcap0 : 0 < t.maxslots := by omega
  have hs : s < t.maxslots := by rw [← hmur2]; exact bucket_lt hcap0
  have hne := succ_mod_ne hcap hs
  have hplt : (s + 1) % t.maxslots < t.maxslots := Nat.mod_lt _ hcap0
  have hat : (chainState t s s k1 v1 1 1).slots s = chainSlot t.maxslots s s k1 v1 1 1 0 :=
    chainState_one_slots_self hs
  have hcond : ¬ ((chainState t s s k1 v1 1 1).usedslots
      ≥ (((chainState t s s k1 v1 1 1).maxslots : Nat) : Int)) := by
    show ¬ (t.usedslots + ((1 : Nat) : Int) - ((0 : Nat) : Int)
      ≥ ((t.maxslots : Nat) : Int))
    rw [hu]
    omega
  have hidxnone : _get_idx (chainState t s s k1 v1 1 1) k2 s = none :=
    get_idx_one_nomatch hz hs hs hnm
  have hfe : _find_empty (chainState t s s k1 v1 1 1) s
      = some ((s + 1) % t.maxslots) := by
    apply find_empty_second (by exact hcap) (by exact hs)
    · rw [hat, chainSlot_zero_count]
      decide
    · show ((chainState t s s k1 v1 1 1).slots ((s + 1) % t.maxslots)).count = 0
      rw [chainState_one_slots_other hs hne]
      exact hz _ hplt
  have hpd : _put_data (chainState t s s k1 v1 1 1) ((s + 1) % t.maxslots) s
      k2 v2 v2.length (-1)
      = (chainState (chainState t s s k1 v1 1 1) ((s + 1) % t.maxslots) s
          k2 v2 (-1) 1, none) := by
    have hp := @put_data_chain (chainState t s s k1 v1 1 1) ((s + 1) % t.maxslots)
      s k2 v2 (-1) (by exact hplt) (Or.inr rfl) hv2
      (by show needSlots v2.length ≤ t.maxslots; rw [needSlots_one hv2 hv2c]; omega)
      (fun a ha => by
        rw [needSlots_one hv2 hv2c] at ha
        have ha0 : a = 0 := by omega
        subst ha0
        show ((chainState t s s k1 v1 1 1).slots
          (chainPos t.maxslots ((s + 1) % t.maxslots) 0)).count = 0
        rw [chainPos_zero hplt]
        rw [chainState_one_slots_other hs hne]
        exact hz _ hplt)
    rw [needSlots_one hv2 hv2c] at hp
    exact hp
  simp only [putFuel]
  rw [if_neg hcond]
  simp only [maxslots_chainState]
  rw [hmur2]
  rw [if_neg (by rw [hat, chainSlot_zero_count]; decide)]
  rw [if_pos (by rw [hat, chainSlot_zero_count]; decide)]
  simp only [hidxnone, hfe, hpd]
  rw [collision_assemble hcap hs]

/-- After `put(k1, v1)` and `put(k2, v2)` for two colliding keys, the
table is exactly the two-entry collision state. -/
theorem put_collision {t : QArr} {k1 v1 k2 v2 : List Nat} {s : Nat}
    (hz : countsZero t) (hu : t.usedslots = 0) (hcap : 2 ≤ t.maxslots)
    (_hk1 : k1.length < 65536) (hk2 : k2.length < 65536)
    (hv1 : 1 ≤ v1.length) (hv1c : v1.length ≤ 32)
    (hv2 : 1 ≤ v2.length) (hv2c : v2.length ≤ 32)
    (hmur1 : qhashmurmur3_32 k1 % t.maxslots = s)
    (hmur2 : qhashmurmur3_32 k2 % t.maxslots = s)
    (hnm : keyMatches k2 (chainSlot t.maxslots s s k1 v1 1 1 0) = false) :
    put (put t k1 v1).1 k2 v2 = (collisionState t s k1 v1 k2 v2, none) := by
  have hcap0 : 0 < t.maxslots := by omega
  have hput1 : put t k1 v1 = (chainState t s s k1 v1 1 1, none) := by
    show putFuel k1 v1 (t.maxslots + 1 + 1) t = _
    have hpe := @put_empty_bucket t k1 v1 (t.maxslots + 1)
      (by rw [hu]; exact_mod_cast hcap0) hv1
      (by rw [needSlots_one hv1 hv1c]; omega)
      (fun a _ => hz _ (chainPos_lt _ _ hcap0))
    rw [needSlots_one hv1 hv1c, hmur1] at hpe
    exact hpe
  rw [hput1]
  show putFuel k2 v2 (t.maxslots + 1 + 1) (chainState t s s k1 v1 1 1) = _
  exact putFuel_collision_step hz hu hcap hk2 hv2 hv2c hmur2 hnm


/-- The leading entry of the collision table is retrieved by `get`. -/
theorem get_collision_fst {t : QArr} {s : Nat} {k1 v1 k2 v2 : List Nat}
    (hcap : 2 ≤ t.maxslots) (_hs : s < t.maxslots)
    (hk1 : k1.length < 65536) (hv1c : v1.length ≤ 32)
    (hmur1 : qhashmurmur3_32 k1 % t.maxslots = s) :
    get (collisionState t s k1 v1 k2 v2) k1 = some v1 := by
  have hself := collisionState_slots_self t s k1 v1 k2 v2
  have hidx : _get_idx (collisionState t s k1 v1 k2 v2) k1 s = some s :=
    get_idx_first (by show 0 < t.maxslots; omega)
      (by rw [hself]; show (0 : Int) < 2; decide)
      (by rw [hself]; rfl)
      (by rw [hself, keyMatches_set_count]; exact keyMatches_self hk1)
  have hlk : ((collisionState t s k1 v1 k2 v2).slots s).link = -1 := by
    rw [hself]
    rfl
  unfold get
  simp only [maxslots_collisionState]
  rw [hmur1]
  simp only [hidx]
  rw [get_data_single hlk]
  rw [hself]
  show some ((chainSlot t.maxslots s s k1 v1 1 1 0).value.take
    (chainSlot t.maxslots s s k1 v1 1 1 0).size) = some v1
  rw [chainSlot_single_take hv1c]

/-- The displaced entry of the collision table is retrieved by `get`. -/
theorem get_collision_snd {t : QArr} {s : Nat} {k1 v1 k2 v2 : List Nat}
    (hcap : 2 ≤ t.maxslots) (hs : s < t.maxslots)
    (hk2 : k2.length < 65536) (hv2c : v2.length ≤ 32)
    (hmur2 : qhashmurmur3_32 k2 % t.maxslots = s)
    (hnm : keyMatches k2 (chainSlot t.maxslots s s k1 v1 1 1 0) = false) :
    get (collisionState t s k1 v1 k2 v2) k2 = some v2 := by
  have hne := succ_mod_ne hcap hs
  have hsnd := collisionState_slots_snd k1 v1 k2 v2 hne
  have hidx := @get_idx_collision_snd t s k1 v1 k2 v2 hcap hs hk2 hnm
  have hlk : ((collisionState t s k1 v1 k2 v2).slots ((s + 1) % t.maxslots)).link
      = -1 := by
    rw [hsnd]
    rfl
  unfold get
  simp only [maxslots_collisionState]
  rw [hmur2]
  simp only [hidx]
  rw [get_data_single hlk]
  rw [hsnd]
  show some ((chainSlot t.maxslots ((s + 1) % t.maxslots) s k2 v2 (-1) 1 0).value.take
    (chainSlot t.maxslots ((s + 1) % t.maxslots) s k2 v2 (-1) 1 0).size) = some v2
  rw [chainSlot_single_take hv2c]

/-- Removing the displaced second entry: the leading slot's collision
count drops from 2 to 1 and the displaced slot is freed. -/
theorem remove_collision_snd {t : QArr} {s : Nat} {k1 v1 k2 v2 : List Nat}
    (hcap : 2 ≤ t.maxslots) (hs : s < t.maxslots) (hk2 : k2.length < 65536)
    (hmur2 : qhashmurmur3_32 k2 % t.maxslots = s)
    (hnm : keyMatches k2 (chainSlot t.maxslots s s k1 v1 1 1 0) = false) :
    remove_ (collisionState t s k1 v1 k2 v2) k2
      = (collisionSndGone t s k1 v1 k2 v2, none) := by
  have hne := succ_mod_ne hcap hs
  have hself := collisionState_slots_self t s k1 v1 k2 v2
  have hsnd := collisionState_slots_snd k1 v1 k2 v2 hne
  have hidx := @get_idx_collision_snd t s k1 v1 k2 v2 hcap hs hk2 hnm
  have hcp : ((collisionState t s k1 v1 k2 v2).slots ((s + 1) % t.maxslots)).count
      = -1 := by
    rw [hsnd]
    rfl
  have hhp : ((collisionState t s k1 v1 k2 v2).slots ((s + 1) % t.maxslots)).hash
      = s := by
    rw [hsnd]
    rfl
  have hcs : ((collisionState t s k1 v1 k2 v2).slots s).count = 2 := by
    rw [hself]
  unfold remove_
  simp only [maxslots_collisionState]
  rw [hmur2]
  simp only [hidx]
  rw [if_neg ?hn1]
  case hn1 => rw [hcp]; decide
  rw [if_neg ?hn2]
  case hn2 => rw [hcp]; decide
  rw [hhp]
  rw [if_neg ?hn3]
  case hn3 => rw [hcs]; decide
  rw [remove_data_single_eq ?hc ?hl]
  case hc =>
    rw [slots_updSlot_ne _ _ _ hne, hcp]
    decide
  case hl =>
    rw [slots_updSlot_ne _ _ _ hne, hsnd]
    rfl
  refine congrArg (fun X => (X, (none : Option Errno))) ?_
  apply QArr.ext
  · rfl
  · show t.usedslots + 2 - 1 = t.usedslots + 1
    omega
  · show t.num + 2 - 1 = t.num + 1
    omega
  · funext i
    show (updSlot (updSlot (collisionState t s k1 v1 k2 v2) s
      (fun sl => { sl with count := sl.count - 1 })) ((s + 1) % t.maxslots)
      (fun sl => { sl with count := 0 })).slots i
      = (collisionSndGone t s k1 v1 k2 v2).slots i
    by_cases hi2 : i = (s + 1) % t.maxslots
    · subst hi2
      rw [slots_updSlot_self]
      rw [slots_updSlot_ne _ _ _ hne]
      rw [hsnd]
      simp only [collisionSndGone]
      rw [if_neg hne, if_true]
    · by_cases hi1 : i = s
      · subst hi1
        rw [slots_updSlot_ne _ _ _ (Ne.symm hne)]
        rw [slots_updSlot_self]
        rw [hself]
        simp only [collisionSndGone]
        rw [if_true]
        rfl
      · rw [slots_updSlot_ne _ _ _ hi2]
        rw [slots_updSlot_ne _ _ _ hi1]
        rw [collisionState_slots_other _ _ _ _ hi1 hi2]
        simp only [collisionSndGone]
        rw [if_neg hi1, if_neg hi2]



/-- After the displaced entry is removed, the leading entry is still
retrieved by `get`. -/
theorem get_sndgone_fst {t : QArr} {s : Nat} {k1 v1 k2 v2 : List Nat}
    (hcap : 2 ≤ t.maxslots) (hk1 : k1.length < 65536) (hv1c : v1.length ≤ 32)
    (hmur1 : qhashmurmur3_32 k1 % t.maxslots = s) :
    get (collisionSndGone t s k1 v1 k2 v2) k1 = some v1 := by
  have hself := collisionSndGone_slots_self t s k1 v1 k2 v2
  have hidx : _get_idx (collisionSndGone t s k1 v1 k2 v2) k1 s = some s :=
    get_idx_first (by show 0 < t.maxslots; omega)
      (by rw [hself]; show (0 : Int) < 1; decide)
      (by rw [hself]; rfl)
      (by rw [hself, keyMatches_set_count]; exact keyMatches_self hk1)
  have hlk : ((collisionSndGone t s k1 v1 k2 v2).slots s).link = -1 := by
    rw [hself]
    rfl
  unfold get
  simp only [maxslots_collisionSndGone]
  rw [hmur1]
  simp only [hidx]
  rw [get_data_single hlk]
  rw [hself]
  show some ((chainSlot t.maxslots s s k1 v1 1 1 0).value.take
    (chainSlot t.maxslots s s k1 v1 1 1 0).size) = some v1
  rw [chainSlot_single_take hv1c]

/-- After the leading entry is removed (and the displaced member
relocated into the leading position), the second key is still retrieved
by `get`. -/
theorem get_fstgone_snd {t : QArr} {s : Nat} {k1 v1 k2 v2 : List Nat}
    (hcap : 2 ≤ t.maxslots) (hk2 : k2.length < 65536) (hv2c : v2.length ≤ 32)
    (hmur2 : qhashmurmur3_32 k2 % t.maxslots = s) :
    get (collisionFstGone t s k1 v1 k2 v2) k2 = some v2 := by
  have hself := collisionFstGone_slots_self t s k1 v1 k2 v2
  have hidx : _get_idx (collisionFstGone t s k1 v1 k2 v2) k2 s = some s :=
    get_idx_first (by show 0 < t.maxslots; omega)
      (by rw [hself]; show (0 : Int) < 1; decide)
      (by rw [hself]; rfl)
      (by rw [hself, keyMatches_set_count]; exact keyMatches_self hk2)
  have hlk : ((collisionFstGone t s k1 v1 k2 v2).slots s).link = -1 := by
    rw [hself]
    rfl
  unfold get
  simp only [maxslots_collisionFstGone]
  rw [hmur2]
  simp only [hidx]
  rw [get_data_single hlk]
  rw [hself]
  show some ((chainSlot t.maxslots ((s + 1) % t.maxslots) s k2 v2 (-1) 1 0).value.take
    (chainSlot t.maxslots ((s + 1) % t.maxslots) s k2 v2 (-1) 1 0).size) = some v2
  rw [chainSlot_single_take hv2c]

/-- Removing the leading entry of the collision table: the displaced
collision member is located by the `count == -1` scan, moved into the
leading position, and its collision count set to the original count
minus one. -/
theorem remove_collision_fst {t : QArr} {s : Nat} {k1 v1 k2 v2 : List Nat}
    (hcap : 2 ≤ t.maxslots) (hs : s < t.maxslots) (hk1 : k1.length < 65536)
    (hmur1 : qhashmurmur3_32 k1 % t.maxslots = s) :
    remove_ (collisionState t s k1 v1 k2 v2) k1
      = (collisionFstGone t s k1 v1 k2 v2, none) := by
  have hne := succ_mod_ne hcap hs
  have hself := collisionState_slots_self t s k1 v1 k2 v2
  have hsnd := collisionState_slots_snd k1 v1 k2 v2 hne
  have hidx : _get_idx (collisionState t s k1 v1 k2 v2) k1 s = some s :=
    get_idx_first (by show 0 < t.maxslots; omega)
      (by rw [hself]; show (0 : Int) < 2; decide)
      (by rw [hself]; rfl)
      (by rw [hself, keyMatches_set_count]; exact keyMatches_self hk1)
  have hcs : ((collisionState t s k1 v1 k2 v2).slots s).count = 2 := by
    rw [hself]
  have hcp : ((collisionState t s k1 v1 k2 v2).slots ((s + 1) % t.maxslots)).count
      = -1 := by
    rw [hsnd]
    rfl
  have hdup : findDupAux (collisionState t s k1 v1 k2 v2) s s (t.maxslots + 1)
      (s + 1) = some ((s + 1) % t.maxslots) := by
    rcases Nat.lt_or_ge (s + 1) t.maxslots with hlt | hge
    · have hp : (s + 1) % t.maxslots = s + 1 := Nat.mod_eq_of_lt hlt
      rw [hp]
      rw [hp] at hsnd
      exact findDupAux_hit (by exact hlt) (by omega)
        (by rw [hsnd]; exact ⟨rfl, rfl⟩)
    · have he : s + 1 = t.maxslots := by omega
      have hp : (s + 1) % t.maxslots = 0 := by rw [he, Nat.mod_self]
      rw [hp]
      rw [hp] at hsnd
      exact findDupAux_hit_wrap (by show s + 1 ≥ t.maxslots; omega) (by omega)
        (by rw [hsnd]; exact ⟨rfl, rfl⟩)
  unfold remove_
  simp only [maxslots_collisionState]
  rw [hmur1]
  simp only [hidx]
  rw [if_neg ?hn1]
  case hn1 => rw [hcs]; decide
  rw [if_pos ?hp2]
  case hp2 => rw [hcs]; decide
  simp only [hdup]
  rw [hcs]
  rw [remove_data_single_eq ?hcA ?hlA]
  case hcA => rw [hcs]; decide
  case hlA => rw [hself]; rfl
  dsimp only
  rw [copy_slot_eq ?hcB1 ?hcB2]
  case hcB1 =>
    rw [slots_updSlot_self]
  case hcB2 =>
    rw [slots_updSlot_ne _ _ _ hne, hcp]
    decide
  dsimp only
  rw [remove_slot_eq ?hcC]
  case hcC =>
    rw [slots_setSlot_ne _ _ _ hne]
    rw [slots_updSlot_ne _ _ _ hne, hcp]
    decide
  dsimp only
  rw [if_neg ?hlast]
  case hlast =>
    rw [slots_updSlot_self]
    dsimp only
    rw [slots_updSlot_ne _ _ _ (Ne.symm hne)]
    rw [slots_setSlot_self]
    rw [slots_updSlot_ne _ _ _ hne]
    rw [hsnd]
    simp only [ne_eq, not_not]
    rfl
  refine congrArg (fun X => (X, (none : Option Errno))) ?_
  apply QArr.ext
  · rfl
  · show t.usedslots + 2 - 1 + 1 - 1 = t.usedslots + 1
    omega
  · show t.num + 2 - 1 = t.num + 1
    omega
  · funext i
    rw [collisionFstGone]
    dsimp only
    by_cases hi1 : i = s
    · subst hi1
      rw [slots_updSlot_self]
      dsimp only
      rw [slots_updSlot_ne _ _ _ (Ne.symm hne)]
      rw [slots_setSlot_self]
      rw [slots_updSlot_ne _ _ _ hne]
      rw [hsnd]
      rw [if_pos rfl]
      rfl
    · by_cases hi2 : i = (s + 1) % t.maxslots
      · subst hi2
        rw [slots_updSlot_ne _ _ _ hne]
        dsimp only
        rw [slots_updSlot_self]
        dsimp only
        rw [slots_setSlot_ne _ _ _ hne]
        rw [slots_updSlot_ne _ _ _ hne]
        rw [hsnd]
        rw [if_neg hne, if_pos rfl]
      · rw [slots_updSlot_ne _ _ _ hi1]
        dsimp only
        rw [slots_updSlot_ne _ _ _ hi2]
        dsimp only
        rw [slots_setSlot_ne _ _ _ hi1]
        rw [slots_updSlot_ne _ _ _ hi1]
        rw [collisionState_slots_other _ _ _ _ hi1 hi2]
        rw [if_neg hi1, if_neg hi2]


set_option maxRecDepth 40000

/-- C4: whenever `used_slots ≥ capacity` (as checked by the C code's
`usedslots >= maxslots` guard), `put` fails with `ENOBUFS` for every key
and value — the check precedes the hash computation and the key lookup,
so an overwrite of a key already present in the table is blocked too,
and the table is returned unchanged. -/
theorem C4_full_table_blocks_put {t : QArr} {key v : List Nat}
    (h : (t.maxslots : Int) ≤ t.usedslots) :
    put t key v = (t, some Errno.ENOBUFS) := by
  show putFuel key v (t.maxslots + 1 + 1) t = (t, some Errno.ENOBUFS)
  exact putFuel_full h

theorem C4_full_table_blocks_put_witness :
    put (put (qhasharrNew 1) [97] [5]).1 [97] [6]
      = ((put (qhasharrNew 1) [97] [5]).1, some Errno.ENOBUFS) :=
  C4_full_table_blocks_put (by decide)

/-- C9 (amended): `clear` resets the table — provided `used_slots` is
non-zero when it is called; the C code returns immediately otherwise.
In that case `size` reports 0 keys, `used_slots` and `num_keys` are 0,
every slot of the array is the all-zero slot, `capacity` is unchanged,
and `get` fails (not-found) for every key. -/
theorem C9_clear_resets {t : QArr} (h : t.usedslots ≠ 0) :
    (clear t).maxslots = t.maxslots ∧
    (size (clear t)).1 = 0 ∧
    (clear t).usedslots = 0 ∧
    (clear t).num = 0 ∧
    (∀ i, (clear t).slots i = zeroSlot) ∧
    (∀ key, get (clear t) key = none) := by
  unfold clear
  rw [if_neg h]
  refine ⟨rfl, rfl, rfl, rfl, fun i => rfl, fun key => ?_⟩
  have hidx := @get_idx_neg { t with usedslots := 0, num := 0, slots := fun _ => zeroSlot }
    key (qhashmurmur3_32 key % t.maxslots) (by simp [zeroSlot])
  unfold get
  dsimp only
  simp only [hidx]

theorem C9_clear_resets_witness :
    (clear (put (qhasharrNew 2) [97] [5]).1).maxslots
        = (put (qhasharrNew 2) [97] [5]).1.maxslots ∧
    (size (clear (put (qhasharrNew 2) [97] [5]).1)).1 = 0 ∧
    (clear (put (qhasharrNew 2) [97] [5]).1).usedslots = 0 ∧
    (clear (put (qhasharrNew 2) [97] [5]).1).num = 0 ∧
    (∀ i, (clear (put (qhasharrNew 2) [97] [5]).1).slots i = zeroSlot) ∧
    (∀ key, get (clear (put (qhasharrNew 2) [97] [5]).1) key = none) :=
  C9_clear_resets (by decide)

/-- The `clear` claim fails without the `used_slots ≠ 0` proviso: a
successful size-0 `put` occupies a slot without incrementing
`used_slots`, so `clear` returns immediately, the slot array is not
zero-filled, and the previously stored key is still found. -/
theorem C9_counterexample :
    (put (qhasharrNew 1) [97] []).2 = none ∧
    (put (qhasharrNew 1) [97] []).1.usedslots = 0 ∧
    ((clear (put (qhasharrNew 1) [97] []).1).slots 0).count = 1 ∧
    (clear (put (qhasharrNew 1) [97] []).1).slots 0 ≠ zeroSlot ∧
    get (clear (put (qhasharrNew 1) [97] []).1) [97] ≠ none := by
  decide

/-- C7 is refuted by the code: a successful `put` of a size-0 value
occupies a slot without touching `num_keys`/`used_slots` (the storing
loop of `_put_data` never runs), so the subsequent successful `remove`
drives both counters to `-1`, violating `0 ≤ num_keys ≤ used_slots`. -/
theorem C7_invariant_violation :
    (put (qhasharrNew 1) [97] []).2 = none ∧
    (remove_ (put (qhasharrNew 1) [97] []).1 [97]).2 = none ∧
    (remove_ (put (qhasharrNew 1) [97] []).1 [97]).1.num < 0 ∧
    (remove_ (put (qhasharrNew 1) [97] []).1 [97]).1.usedslots < 0 := by
  decide

/-- C1 (amended): round-trip holds for keys with `0 < strlen(key) < 2^16`
and values of at least one byte, put into a table whose slots are all
empty and whose `used_slots` counter is 0, provided the value's chain
fits the capacity: `put` succeeds and `get` returns exactly the stored
bytes — including values spread over chained extension slots. -/
theorem C1_roundtrip {t : QArr} {key v : List Nat}
    (hz : countsZero t) (hu : t.usedslots = 0)
    (_hk : 1 ≤ key.length) (hklen : key.length < 65536)
    (hv : 1 ≤ v.length) (hm : needSlots v.length ≤ t.maxslots) :
    (put t key v).2 = none ∧ get (put t key v).1 key = some v := by
  have hcap : 0 < t.maxslots := lt_of_lt_of_le (needSlots_pos hv) hm
  have hempty : ∀ a, a < needSlots v.length →
      (t.slots (chainPos t.maxslots (qhashmurmur3_32 key % t.maxslots) a)).count = 0 :=
    fun a _ => hz _ (chainPos_lt _ _ hcap)
  have hput : put t key v = (chainState t (qhashmurmur3_32 key % t.maxslots)
      (qhashmurmur3_32 key % t.maxslots) key v 1 (needSlots v.length), none) := by
    show putFuel key v (t.maxslots + 1 + 1) t = _
    exact put_empty_bucket (t.maxslots + 1) (by rw [hu]; exact_mod_cast hcap) hv hm hempty
  rw [hput]
  exact ⟨rfl, get_chain (bucket_lt hcap) hv rfl hm hklen rfl⟩

theorem C1_roundtrip_witness :
    (put (qhasharrNew 8) [107, 49] (List.replicate 99 7)).2 = none ∧
    get (put (qhasharrNew 8) [107, 49] (List.replicate 99 7)).1 [107, 49]
      = some (List.replicate 99 7) :=
  C1_roundtrip (fun i _ => rfl) rfl (by decide) (by decide) (by decide) (by decide)

/-- The unrestricted round-trip claim fails for size-0 values: after a
key is stored and removed, a successful `put` of the same key with an
empty value leaves the slot's stale `size`/payload in place (the storing
loop never runs), so `get` returns the old bytes instead of the empty
value. -/
theorem C1_counterexample :
    (put (remove_ (put (qhasharrNew 8) [97] [1, 2, 3, 4, 5]).1 [97]).1 [97] []).2
      = none ∧
    get (put (remove_ (put (qhasharrNew 8) [97] [1, 2, 3, 4, 5]).1 [97]).1 [97] []).1 [97]
      ≠ some [] := by
  decide

/-- C2 (amended): overwrite semantics for values of at least one byte.
Starting from an all-empty table, after `put(k, v1)` and `put(k, v2)`
(both succeeding), `get(k)` returns exactly `v2`, and `num_keys` is
unchanged across the second `put` — which replaces by
remove-then-reinsert, per `put`'s self-recursion after `remove`. -/
theorem C2_overwrite {t : QArr} {key v1 v2 : List Nat}
    (hz : countsZero t) (hu : t.usedslots = 0)
    (hklen : key.length < 65536)
    (hv1 : 1 ≤ v1.length) (hm1 : needSlots v1.length < t.maxslots)
    (hv2 : 1 ≤ v2.length) (hm2 : needSlots v2.length ≤ t.maxslots) :
    (put (put t key v1).1 key v2).2 = none ∧
    get (put (put t key v1).1 key v2).1 key = some v2 ∧
    (put (put t key v1).1 key v2).1.num = (put t key v1).1.num := by
  have hcap : 0 < t.maxslots := lt_of_le_of_lt (Nat.zero_le _) hm1
  have hmur : qhashmurmur3_32 key % t.maxslots = qhashmurmur3_32 key % t.maxslots := rfl
  have hstart : qhashmurmur3_32 key % t.maxslots < t.maxslots := bucket_lt hcap
  have hput1 : put t key v1 = (chainState t (qhashmurmur3_32 key % t.maxslots)
      (qhashmurmur3_32 key % t.maxslots) key v1 1 (needSlots v1.length), none) := by
    show putFuel key v1 (t.maxslots + 1 + 1) t = _
    exact put_empty_bucket (t.maxslots + 1) (by rw [hu]; exact_mod_cast hcap) hv1
      (le_of_lt hm1) (fun a _ => hz _ (chainPos_lt _ _ hcap))
  have hgone : countsZero (chainGone t (qhashmurmur3_32 key % t.maxslots)
      (qhashmurmur3_32 key % t.maxslots) key v1 1 (needSlots v1.length)) :=
    chainGone_countsZero hz
  have hput2 : put (put t key v1).1 key v2
      = (chainState (chainGone t (qhashmurmur3_32 key % t.maxslots)
          (qhashmurmur3_32 key % t.maxslots) key v1 1 (needSlots v1.length))
          (qhashmurmur3_32 key % t.maxslots) (qhashmurmur3_32 key % t.maxslots)
          key v2 1 (needSlots v2.length), none) := by
    rw [hput1]
    show putFuel key v2 (t.maxslots + 1 + 1)
      (chainState t (qhashmurmur3_32 key % t.maxslots)
        (qhashmurmur3_32 key % t.maxslots) key v1 1 (needSlots v1.length)) = _
    rw [put_second_removes hu hklen hv1 hm1 hmur]
    have hpe := @put_empty_bucket (chainGone t (qhashmurmur3_32 key % t.maxslots)
        (qhashmurmur3_32 key % t.maxslots) key v1 1 (needSlots v1.length)) key v2
      t.maxslots
      (by show t.usedslots + ((needSlots v1.length : Nat) : Int)
            - ((needSlots v1.length : Nat) : Int) < ((t.maxslots : Nat) : Int)
          rw [hu]; omega)
      hv2 (by exact hm2)
      (fun a _ => hgone _ (chainPos_lt _ _ hcap))
    simp only [maxslots_chainGone] at hpe
    obtain ⟨f, hf⟩ : ∃ f, t.maxslots = f + 1 := ⟨t.maxslots - 1, by omega⟩
    rw [hf] at hpe ⊢
    exact hpe
  rw [hput2, hput1]
  refine ⟨rfl, ?_, ?_⟩
  · exact get_chain (by exact hstart) hv2 rfl (by exact hm2) hklen (by exact hmur)
  · rfl

theorem C2_overwrite_witness :
    (put (put (qhasharrNew 8) [97] [1, 2, 3]).1 [97] (List.replicate 40 9)).2 = none ∧
    get (put (put (qhasharrNew 8) [97] [1, 2, 3]).1 [97] (List.replicate 40 9)).1 [97]
      = some (List.replicate 40 9) ∧
    (put (put (qhasharrNew 8) [97] [1, 2, 3]).1 [97] (List.replicate 40 9)).1.num
      = (put (qhasharrNew 8) [97] [1, 2, 3]).1.num :=
  C2_overwrite (fun i _ => rfl) rfl (by decide) (by decide) (by decide) (by decide)
    (by decide)

/-- The unrestricted overwrite claim fails for an empty second value:
both `put`s succeed, yet `get` still returns the first value (the
storing loop never ran, leaving the stale payload) and `num_keys`
changes across the second `put` (the removal decremented it but the
re-insert never incremented it). -/
theorem C2_counterexample :
    (put (put (qhasharrNew 2) [97] [7]).1 [97] []).2 = none ∧
    get (put (put (qhasharrNew 2) [97] [7]).1 [97] []).1 [97] ≠ some [] ∧
    (put (put (qhasharrNew 2) [97] [7]).1 [97] []).1.num
      ≠ (put (qhasharrNew 2) [97] [7]).1.num := by
  decide

/-- C10: when `put` into an all-empty table runs out of empty slots
while storing an oversized value (the value's chain needs more slots
than the table has), the partially written chain is removed before
`put` returns the `ENOBUFS` failure: every slot is unoccupied again
(`count == 0`), and `used_slots` and `num_keys` hold their values from
the start of the attempt. -/
theorem C10_enobufs_rollback {t : QArr} {key v : List Nat}
    (hz : countsZero t) (hu : t.usedslots = 0)
    (hv : 1 ≤ v.length) (hover : t.maxslots < needSlots v.length)
    (hcap : 0 < t.maxslots) :
    (put t key v).2 = some Errno.ENOBUFS ∧
    (put t key v).1.usedslots = t.usedslots ∧
    (put t key v).1.num = t.num ∧
    countsZero (put t key v).1 := by
  have hput : put t key v = (chainGone t (qhashmurmur3_32 key % t.maxslots)
      (qhashmurmur3_32 key % t.maxslots) key v 1 t.maxslots,
      some Errno.ENOBUFS) := by
    show putFuel key v (t.maxslots + 1 + 1) t = _
    exact put_empty_bucket_fail (t.maxslots + 1) (by rw [hu]; exact_mod_cast hcap)
      hv hover hcap (fun a _ => hz _ (chainPos_lt _ _ hcap))
  rw [hput]
  refine ⟨rfl, ?_, rfl, chainGone_countsZero hz⟩
  show t.usedslots + ((t.maxslots : Nat) : Int) - ((t.maxslots : Nat) : Int)
    = t.usedslots
  omega

theorem C10_enobufs_rollback_witness :
    (put (qhasharrNew 2) [97] (List.replicate 99 7)).2 = some Errno.ENOBUFS ∧
    (put (qhasharrNew 2) [97] (List.replicate 99 7)).1.usedslots
      = (qhasharrNew 2).usedslots ∧
    (put (qhasharrNew 2) [97] (List.replicate 99 7)).1.num = (qhasharrNew 2).num ∧
    countsZero (put (qhasharrNew 2) [97] (List.replicate 99 7)).1 :=
  C10_enobufs_rollback (fun i _ => rfl) rfl (by decide) (by decide) (by decide)

/-- C6: two keys longer than the 16-byte key capacity with the same
truncated prefix and the same length are never confused: with one of
them stored, `get` of the other misses and `remove` of the other fails
with `ENOENT` whenever their MD5 digests differ, while the stored key
itself is still retrieved; and the slot comparison for a long key
succeeds exactly when stored length, truncated bytes and MD5 digest all
agree. -/
theorem C6_truncated_keys_not_confused {t : QArr} {k1 k2 v : List Nat}
    (hz : countsZero t) (hu : t.usedslots = 0)
    (h16 : 16 < k1.length) (hlen : k2.length = k1.length) (hk1 : k1.length < 65536)
    (_hpre : k2.take 16 = k1.take 16) (hmd5 : qhashmd5 k2 ≠ qhashmd5 k1)
    (hv : 1 ≤ v.length) (hv32 : v.length ≤ 32) (hcap : 0 < t.maxslots) :
    get (put t k1 v).1 k1 = some v ∧
    get (put t k1 v).1 k2 = none ∧
    (remove_ (put t k1 v).1 k2).2 = some Errno.ENOENT ∧
    (∀ sl : Slot, keyMatches k2 sl = true ↔
      k2.length = sl.keylen ∧ k2.take 16 = sl.key.take 16 ∧
      qhashmd5 k2 = sl.keymd5) := by
  have hm1 : needSlots v.length = 1 := needSlots_one hv hv32
  have hput : put t k1 v = (chainState t (qhashmurmur3_32 k1 % t.maxslots)
      (qhashmurmur3_32 k1 % t.maxslots) k1 v 1 1, none) := by
    show putFuel k1 v (t.maxslots + 1 + 1) t = _
    have hpe := @put_empty_bucket t k1 v (t.maxslots + 1)
      (by rw [hu]; exact_mod_cast hcap) hv (by omega)
      (fun a _ => hz _ (chainPos_lt _ _ hcap))
    rw [hm1] at hpe
    exact hpe
  have hnm : keyMatches k2 (chainSlot t.maxslots (qhashmurmur3_32 k1 % t.maxslots)
      (qhashmurmur3_32 k1 % t.maxslots) k1 v 1 1 0) = false :=
    keyMatches_ne_md5 hk1 (by omega) hmd5
  have hidx2 := @get_idx_one_nomatch t k1 k2 v (qhashmurmur3_32 k1 % t.maxslots)
    (qhashmurmur3_32 k2 % t.maxslots) hz (bucket_lt hcap) (bucket_lt hcap) hnm
  rw [hput]
  refine ⟨?_, ?_, ?_, fun sl => keyMatches_long_iff (by omega)⟩
  · exact get_chain (bucket_lt hcap) hv hm1.symm (by omega) hk1 rfl
  · unfold get
    simp only [maxslots_chainState]
    simp only [hidx2]
  · unfold remove_
    simp only [maxslots_chainState]
    simp only [hidx2]

theorem C6_truncated_keys_not_confused_witness :
    get (put (qhasharrNew 4) (List.replicate 16 65 ++ [66]) [9]).1
        (List.replicate 16 65 ++ [66]) = some [9] ∧
    get (put (qhasharrNew 4) (List.replicate 16 65 ++ [66]) [9]).1
        (List.replicate 16 65 ++ [67]) = none ∧
    (remove_ (put (qhasharrNew 4) (List.replicate 16 65 ++ [66]) [9]).1
        (List.replicate 16 65 ++ [67])).2 = some Errno.ENOENT ∧
    (∀ sl : Slot, keyMatches (List.replicate 16 65 ++ [67]) sl = true ↔
      (List.replicate 16 65 ++ [67]).length = sl.keylen ∧
      (List.replicate 16 65 ++ [67]).take 16 = sl.key.take 16 ∧
      qhashmd5 (List.replicate 16 65 ++ [67]) = sl.keymd5) :=
  C6_truncated_keys_not_confused (fun i _ => rfl) rfl (by decide) (by decide)
    (by decide) (by decide) (by decide) (by decide) (by decide) (by decide)

/-- C3 (amended): when `put` targets a bucket index occupied by an
extension slot (`count == -2`), the occupant is relocated to the empty
slot found by probing forward from `hash+1` and both of its links are
fixed up — the predecessor's forward `link` and the successor's backward
`hash` pointer — so the chain it belongs to stays intact, and the new
primary entry is written into the freed bucket index.  Concretely: a
3-slot chain for a 99-byte value occupies slots 2→3→4; a `put` whose
bucket is 3 relocates the extension from 3 to 5, reroutes the chain to
2→5→4, writes the new primary at 3, and both entries remain
retrievable. -/
theorem C3_ext_relocation :
    (put (put (qhasharrNew 8) [107, 49] (List.replicate 99 7)).1 [98] [5, 6]).2
      = none ∧
    ((put (put (qhasharrNew 8) [107, 49] (List.replicate 99 7)).1 [98] [5, 6]).1.slots 3).count = 1 ∧
    ((put (put (qhasharrNew 8) [107, 49] (List.replicate 99 7)).1 [98] [5, 6]).1.slots 3).hash = 3 ∧
    ((put (put (qhasharrNew 8) [107, 49] (List.replicate 99 7)).1 [98] [5, 6]).1.slots 5).count = -2 ∧
    ((put (put (qhasharrNew 8) [107, 49] (List.replicate 99 7)).1 [98] [5, 6]).1.slots 5).hash = 2 ∧
    ((put (put (qhasharrNew 8) [107, 49] (List.replicate 99 7)).1 [98] [5, 6]).1.slots 5).link = 4 ∧
    ((put (put (qhasharrNew 8) [107, 49] (List.replicate 99 7)).1 [98] [5, 6]).1.slots 2).link = 5 ∧
    ((put (put (qhasharrNew 8) [107, 49] (List.replicate 99 7)).1 [98] [5, 6]).1.slots 4).hash = 5 ∧
    get (put (put (qhasharrNew 8) [107, 49] (List.replicate 99 7)).1 [98] [5, 6]).1
        [107, 49] = some (List.replicate 99 7) ∧
    get (put (put (qhasharrNew 8) [107, 49] (List.replicate 99 7)).1 [98] [5, 6]).1
        [98] = some [5, 6] := by
  decide

/-- The unrestricted link-fix-up claim is refuted when the relocated
occupant is a displaced collision head (`count == -1`) with its own
extension chain: `put` copies it forward but never updates its
extension's backward `hash` pointer, which keeps pointing at the freed
bucket index.  Keys: `d`,`b` hash to bucket 3, `l` to 4, `t` to 5 in an
8-slot table; `b`'s 50-byte entry is displaced to slots 4→5; the `put`
of `l` relocates `b`'s head from 4 to 6 but slot 5's backward pointer
stays 4, and the later `put` of `t` follows the stale pointer and
corrupts `l`'s entry. -/
theorem C3_counterexample :
    (put (put (put (qhasharrNew 8) [100] [1, 2]).1 [98] (List.replicate 50 9)).1
        [108] [12, 33]).2 = none ∧
    ((put (put (put (qhasharrNew 8) [100] [1, 2]).1 [98] (List.replicate 50 9)).1
        [108] [12, 33]).1.slots 6).count = -1 ∧
    ((put (put (put (qhasharrNew 8) [100] [1, 2]).1 [98] (List.replicate 50 9)).1
        [108] [12, 33]).1.slots 6).link = 5 ∧
    ((put (put (put (qhasharrNew 8) [100] [1, 2]).1 [98] (List.replicate 50 9)).1
        [108] [12, 33]).1.slots 5).count = -2 ∧
    ((put (put (put (qhasharrNew 8) [100] [1, 2]).1 [98] (List.replicate 50 9)).1
        [108] [12, 33]).1.slots 5).hash ≠ 6 ∧
    (put (put (put (put (qhasharrNew 8) [100] [1, 2]).1 [98] (List.replicate 50 9)).1
        [108] [12, 33]).1 [116] [7]).2 = none ∧
    get (put (put (put (put (qhasharrNew 8) [100] [1, 2]).1 [98]
        (List.replicate 50 9)).1 [108] [12, 33]).1 [116] [7]).1 [108]
      ≠ some [12, 33] := by
  decide

/-- C8: driving `getnext` from cursor 0 to exhaustion over a table
holding one stored entry yields exactly `num_keys` (= 1) entries — the
stored key's (possibly truncated) name with its full value — and the
entry is also retrievable via `get`.  The chain's extension slots
(`count == -2`) and all empty slots (`count == 0`) are skipped and never
returned as standalone results: the value spans `needSlots` slots, yet
exactly one pair is yielded. -/
theorem C8_iteration_complete {t : QArr} {key v : List Nat}
    (hz : countsZero t) (hu : t.usedslots = 0) (hn : t.num = 0)
    (hklen : key.length < 65536)
    (hv : 1 ≤ v.length) (hm : needSlots v.length ≤ t.maxslots) :
    iterAll (put t key v).1 = [(key.take (min key.length 16), v)] ∧
    ((iterAll (put t key v).1).length : Int) = (put t key v).1.num ∧
    get (put t key v).1 key = some v := by
  have hcap : 0 < t.maxslots := lt_of_lt_of_le (needSlots_pos hv) hm
  have hput : put t key v = (chainState t (qhashmurmur3_32 key % t.maxslots)
      (qhashmurmur3_32 key % t.maxslots) key v 1 (needSlots v.length), none) := by
    show putFuel key v (t.maxslots + 1 + 1) t = _
    exact put_empty_bucket (t.maxslots + 1) (by rw [hu]; exact_mod_cast hcap) hv hm
      (fun a _ => hz _ (chainPos_lt _ _ hcap))
  rw [hput]
  dsimp only
  generalize hgen : qhashmurmur3_32 key % t.maxslots = s
  have hstart : s < t.maxslots := by rw [← hgen]; exact bucket_lt hcap
  have hat : (chainState t s s key v 1 (needSlots v.length)).slots s
      = chainSlot t.maxslots s s key v 1 (needSlots v.length) 0 := by
    have h0 := @chainStateZ_slots_at t s s key v 1 (needSlots v.length) 0 0 hm
      (needSlots_pos hv)
    rw [if_neg (by omega), chainPos_zero hstart] at h0
    rw [chainState, h0]
  have hc : ¬ (((chainState t s s key v 1 (needSlots v.length)).slots s).count = 0 ∨
      ((chainState t s s key v 1 (needSlots v.length)).slots s).count = -2) := by
    rw [hat, chainSlot_zero_count]
    decide
  have hdata : _get_data (chainState t s s key v 1 (needSlots v.length)) s = some v :=
    get_data_chain hstart hv rfl hm
  have hnext0 : getnext (chainState t s s key v 1 (needSlots v.length)) 0
      = some ((strncpy16 key).take (min (key.length % 65536) _Q_HASHARR_KEYSIZE),
          v, s + 1) := by
    have h1 := @getnextAux_first_hit (chainState t s s key v 1 (needSlots v.length))
      s v (by exact hstart)
      (fun i hi => chainState_count_notself hstart hz (by omega) (by omega))
      hc hdata t.maxslots 0 (by omega) (by omega)
    rw [hat] at h1
    exact h1
  have hnone : getnext (chainState t s s key v 1 (needSlots v.length)) (s + 1)
      = none := by
    show getnextAux (chainState t s s key v 1 (needSlots v.length))
      (chainState t s s key v 1 (needSlots v.length)).maxslots (s + 1) = none
    exact getnextAux_none_of_skippable _ _ (fun i hi1 hi2 =>
      chainState_count_notself hstart hz (by exact hi2) (by omega))
  have hlist : iterAll (chainState t s s key v 1 (needSlots v.length))
      = [(key.take (min key.length 16), v)] := by
    show iterAllAux (chainState t s s key v 1 (needSlots v.length))
      ((chainState t s s key v 1 (needSlots v.length)).maxslots + 1) 0 = _
    rw [iterAllAux_cons hnext0]
    rw [iterAllAux_nil (s + 1) hnone]
    rw [Nat.mod_eq_of_lt hklen]
    rw [show _Q_HASHARR_KEYSIZE = 16 from rfl]
    rw [take_strncpy16 (min_le_left _ _) (min_le_right _ _)]
  refine ⟨hlist, ?_, get_chain hstart hv rfl hm hklen hgen⟩
  rw [hlist]
  show ((1 : Nat) : Int) = t.num + 1
  rw [hn]
  decide

theorem C8_iteration_complete_witness :
    iterAll (put (qhasharrNew 8) [107, 49] (List.replicate 99 7)).1
      = [([107, 49].take (min ([107, 49] : List Nat).length 16),
          List.replicate 99 7)] ∧
    ((iterAll (put (qhasharrNew 8) [107, 49] (List.replicate 99 7)).1).length : Int)
      = (put (qhasharrNew 8) [107, 49] (List.replicate 99 7)).1.num ∧
    get (put (qhasharrNew 8) [107, 49] (List.replicate 99 7)).1 [107, 49]
      = some (List.replicate 99 7) :=
  C8_iteration_complete (fun i _ => rfl) rfl rfl (by decide) (by decide) (by decide)

/-- C5: two distinguishable keys hashing to the same bucket, both put
into an all-empty table (single-slot values): each is independently
retrievable via `get`; removing either one leaves the other retrievable
with its original value.  The leading slot holds collision count 2, so
removing the first key exercises the relocation path: a displaced
collision-chain member is moved into the leading position with its
count set to the original count minus one. -/
theorem C5_collision_independence {t : QArr} {k1 v1 k2 v2 : List Nat}
    (hz : countsZero t) (hu : t.usedslots = 0) (hcap : 2 ≤ t.maxslots)
    (hk1 : k1.length < 65536) (hk2 : k2.length < 65536)
    (hv1 : 1 ≤ v1.length) (hv1c : v1.length ≤ 32)
    (hv2 : 1 ≤ v2.length) (hv2c : v2.length ≤ 32)
    (hbkt : qhashmurmur3_32 k2 % t.maxslots = qhashmurmur3_32 k1 % t.maxslots)
    (hnm : keyMatches k2 (chainSlot t.maxslots (qhashmurmur3_32 k1 % t.maxslots)
      (qhashmurmur3_32 k1 % t.maxslots) k1 v1 1 1 0) = false) :
    (put (put t k1 v1).1 k2 v2).2 = none ∧
    ((put (put t k1 v1).1 k2 v2).1.slots
      (qhashmurmur3_32 k1 % t.maxslots)).count = 2 ∧
    get (put (put t k1 v1).1 k2 v2).1 k1 = some v1 ∧
    get (put (put t k1 v1).1 k2 v2).1 k2 = some v2 ∧
    get ((remove_ (put (put t k1 v1).1 k2 v2).1 k1).1) k2 = some v2 ∧
    get ((remove_ (put (put t k1 v1).1 k2 v2).1 k2).1) k1 = some v1 := by
  have hcap0 : 0 < t.maxslots := by omega
  have hs : qhashmurmur3_32 k1 % t.maxslots < t.maxslots := bucket_lt hcap0
  have hput := @put_collision t k1 v1 k2 v2 (qhashmurmur3_32 k1 % t.maxslots)
    hz hu hcap hk1 hk2 hv1 hv1c hv2 hv2c rfl hbkt hnm
  rw [hput]
  dsimp only
  refine ⟨rfl, ?_, ?_, ?_, ?_, ?_⟩
  · rw [collisionState_slots_self]
  · exact get_collision_fst hcap hs hk1 hv1c rfl
  · exact get_collision_snd hcap hs hk2 hv2c hbkt hnm
  · rw [remove_collision_fst hcap hs hk1 rfl]
    dsimp only
    exact get_fstgone_snd hcap hk2 hv2c hbkt
  · rw [remove_collision_snd hcap hs hk2 hbkt hnm]
    dsimp only
    exact get_sndgone_fst hcap hk1 hv1c rfl

theorem C5_collision_independence_witness :
    (put (put (qhasharrNew 8) [98] [1, 2, 3]).1 [100] [4, 5]).2 = none ∧
    ((put (put (qhasharrNew 8) [98] [1, 2, 3]).1 [100] [4, 5]).1.slots
      (qhashmurmur3_32 [98] % 8)).count = 2 ∧
    get (put (put (qhasharrNew 8) [98] [1, 2, 3]).1 [100] [4, 5]).1 [98]
      = some [1, 2, 3] ∧
    get (put (put (qhasharrNew 8) [98] [1, 2, 3]).1 [100] [4, 5]).1 [100]
      = some [4, 5] ∧
    get ((remove_ (put (put (qhasharrNew 8) [98] [1, 2, 3]).1 [100] [4, 5]).1
      [98]).1) [100] = some [4, 5] ∧
    get ((remove_ (put (put (qhasharrNew 8) [98] [1, 2, 3]).1 [100] [4, 5]).1
      [100]).1) [98] = some [1, 2, 3] :=
  C5_collision_independence (fun i _ => rfl) rfl (by decide) (by decide) (by decide)
    (by decide) (by decide) (by decide) (by decide) (by decide) (by decide)

end QHashArr
